import Mathlib

/-!
Shallow embedding of the `hashfs` package (content-addressed filename rewriting
over an `fs.FS`-style backing filesystem) and proofs about it.

The repository keeps two near-duplicate revisions of the module in one source
file.  Revision 1 exposes `HashName` / `FormatName` / `ParseName` / `open` /
`ServeHTTP`; revision 2 exposes `createHashedPath` / `addHashToFilname` /
`lookupFromHashedPath` / `open`.  Both are embedded below over the same state
type, since their states are field-for-field isomorphic
(`m`/`pathToHashPath`, `r`/`hashPathReverse`, `hl`/`hashLocation`).

Strings are embedded as `List Char` (`GoStr`).  Byte slices are `List Nat`.
The backing filesystem is a function from path to an optional entry (regular
file with contents, or directory); per the `fs.FS` contract, `Open`/`ReadFile`
fail on names that do not satisfy `fs.ValidPath`.  The digest function
(`crypto/sha256.Sum256` in the source) is a parameter `digest`; where a proof
needs a fact about it, the fact that sha256 digests are 32 bytes long is taken
as a hypothesis.  Mutexes are dropped: the embedding is sequential.
-/

/-- Go strings, embedded as lists of characters. -/
abbrev GoStr := List Char

/-- Conversion from Lean string literals to the embedded string type. -/
def gs (s : String) : GoStr := s.toList

/-- Entries of the backing filesystem: a regular file with its contents, or a
directory. -/
inductive GoEntry where
  | file (content : List Nat) : GoEntry
  | dir : GoEntry
deriving DecidableEq

/-- A backing filesystem: a partial map from slash-separated path to entry. -/
abbrev GoFS := GoStr → Option GoEntry

/-- One lowercase hexadecimal digit (`encoding/hex` uses the alphabet
`0123456789abcdef`). -/
def hexDigit (n : Nat) : Char :=
  (gs "0123456789abcdef").getD n '0'

/-- Embedding of `hex.EncodeToString`: each byte becomes two lowercase
hexadecimal digits, high nibble first. -/
def hexEncode : List Nat → GoStr
  | [] => []
  | b :: rest => hexDigit (b % 256 / 16) :: hexDigit (b % 16) :: hexEncode rest

/-- Whether a character belongs to the regexp character class `[0-9a-f]`. -/
def isLowerHexDigit (c : Char) : Bool :=
  ('0' ≤ c && c ≤ '9') || ('a' ≤ c && c ≤ 'f')

/-- Whether the next 64 characters all exist and are lowercase hex digits. -/
def hexRun64 (s : GoStr) : Bool :=
  (s.take 64).length == 64 && (s.take 64).all isLowerHexDigit

/-- Embedding of `hashSuffixRegex.MatchString` for the unanchored pattern
`-[0-9a-f]{64}`: true iff the string contains, anywhere, a dash immediately
followed by 64 lowercase hexadecimal characters. -/
def containsHashToken : GoStr → Bool
  | [] => false
  | c :: rest => (c == '-' && hexRun64 rest) || containsHashToken rest

/-- The condition the specification describes for `ParseName`: the string ends
with a dash immediately followed by 64 lowercase hexadecimal characters.  This
follows the claim's words and is compared against what the code does. -/
def endsWithHashToken (s : GoStr) : Bool :=
  65 ≤ s.length && s.getD (s.length - 65) ' ' == '-' && (s.drop (s.length - 64)).all isLowerHexDigit

/-- Embedding of `strings.Index(s, ".")`: position of the first period, if
any. -/
def stringsIndexDot (s : GoStr) : Option Nat :=
  s.findIdx? (fun c => c == '.')

/-- Embedding of `path.Split`: splits immediately after the final slash,
returning directory (with trailing slash) and file name. -/
def pathSplit : GoStr → GoStr × GoStr
  | [] => ([], [])
  | c :: rest =>
    if '/' ∈ rest then
      ((c :: (pathSplit rest).1), (pathSplit rest).2)
    else if c = '/' then ([c], rest)
    else ([], c :: rest)

/-- Embedding of `path.Ext`: the suffix beginning at the final period in the
final slash-separated element, or empty if there is none. -/
def pathExt (p : GoStr) : GoStr :=
  match p.reverse.findIdx? (fun c => c == '.' || c == '/') with
  | some i =>
    if p.reverse.getD i ' ' = '.' then p.drop (p.length - 1 - i) else []
  | none => []

/-- Splitting a string on slashes, for the `fs.ValidPath` check. -/
def splitSlash : GoStr → List GoStr
  | [] => [[]]
  | c :: rest =>
    if c = '/' then [] :: splitSlash rest
    else
      match splitSlash rest with
      | [] => [[c]]
      | e :: es => (c :: e) :: es

/-- A path element acceptable to `fs.ValidPath`: nonempty and not a dot
element. -/
def validElem (e : GoStr) : Bool :=
  decide (e ≠ [] ∧ e ≠ ['.'] ∧ e ≠ ['.', '.'])

/-- Embedding of `io/fs.ValidPath`: the path is `.`, or it is a nonempty
sequence of valid elements separated by single slashes. -/
def fsValidPath (p : GoStr) : Bool :=
  decide (p = ['.']) || (decide (p ≠ []) && (splitSlash p).all validElem)

/-- The backtracking step of `path.Clean` for a `..` element: starting just
below the write index, walk left while above the `..`-barrier and not on a
slash. -/
def backW (buf : GoStr) (dotdot : Nat) : Nat → Nat
  | 0 => 0
  | w + 1 =>
    if dotdot < w + 1 then
      if buf.getD (w + 1) ' ' = '/' then w + 1 else backW buf dotdot w
    else w + 1

/-- The main loop of `path.Clean` over the remaining input, carrying the
output buffer and the `..`-barrier index, exactly as in the Go source.  The
Go loop advances its read index on every iteration, so running it with a step
budget (`fuel`) at least the length of the remaining input computes the same
result; `pathClean` passes exactly the input length. -/
def cleanLoop (rooted : Bool) (fuel : Nat) (buf : GoStr) (dotdot : Nat) (rem : GoStr) : GoStr :=
  match fuel, rem with
  | _, [] => buf
  | 0, _ => buf
  | fuel + 1, '/' :: rest => cleanLoop rooted fuel buf dotdot rest
  | _ + 1, ['.'] => buf
  | fuel + 1, '.' :: '/' :: rest => cleanLoop rooted fuel buf dotdot ('/' :: rest)
  | fuel + 1, '.' :: '.' :: rest =>
    if rest = [] ∨ rest.head? = some '/' then
      if dotdot < buf.length then
        cleanLoop rooted fuel (buf.take (backW buf dotdot (buf.length - 1))) dotdot rest
      else if !rooted then
        cleanLoop rooted fuel
          ((if 0 < buf.length then buf ++ ['/'] else buf) ++ ['.', '.'])
          ((if 0 < buf.length then buf ++ ['/'] else buf) ++ ['.', '.']).length rest
      else cleanLoop rooted fuel buf dotdot rest
    else
      cleanLoop rooted fuel
        (buf ++ (if (rooted && buf.length != 1) || (!rooted && buf.length != 0) then ['/'] else []) ++
          (('.' :: '.' :: rest).takeWhile (fun c => !(c == '/'))))
        dotdot (rest.dropWhile (fun c => !(c == '/')))
  | fuel + 1, c :: rest =>
    cleanLoop rooted fuel
      (buf ++ (if (rooted && buf.length != 1) || (!rooted && buf.length != 0) then ['/'] else []) ++
        ((c :: rest).takeWhile (fun c => !(c == '/'))))
      dotdot (rest.dropWhile (fun c => !(c == '/')))

/-- Embedding of `path.Clean`: lexical cleaning of a slash-separated path. -/
def pathClean (p : GoStr) : GoStr :=
  if p = [] then ['.']
  else
    let rooted := p.head? = some '/'
    let out :=
      if rooted then cleanLoop true p.tail.length ['/'] 1 p.tail
      else cleanLoop false p.length [] 0 p
    if out = [] then ['.'] else out

/-- Embedding of `path.Join` restricted to two arguments, as used by the
source: drop empty arguments, join the rest with a slash, then `Clean`. -/
def pathJoin2 (a b : GoStr) : GoStr :=
  if a = [] then
    if b = [] then [] else pathClean b
  else
    if b = [] then pathClean a else pathClean (a ++ '/' :: b)

/-- Lookup in a Go map embedded as an association list (comma-ok form). -/
def goGet {α : Type} : List (GoStr × α) → GoStr → Option α
  | [], _ => none
  | e :: t, k => if e.1 = k then some e.2 else goGet t k

/-- Lookup in a Go `map[string]string` without comma-ok: missing keys read as
the empty string. -/
def goGetD (m : List (GoStr × GoStr)) (k : GoStr) : GoStr :=
  match goGet m k with
  | some v => v
  | none => []

/-- Whether the embedded Go map has a binding for the key. -/
def goHasKey {α : Type} : List (GoStr × α) → GoStr → Bool
  | [], _ => false
  | e :: t, k => if e.1 = k then true else goHasKey t k

/-- Assignment `m[k] = v` in a Go map embedded as an association list:
overwrite the existing binding or append a new one. -/
def goSet {α : Type} (m : List (GoStr × α)) (k : GoStr) (v : α) : List (GoStr × α) :=
  if goHasKey m k then
    m.map (fun e => if e.1 = k then (k, v) else e)
  else m ++ [(k, v)]

/-- The hash-location selectors.  The Go type is `type hashLocation int`, so
it is embedded as `Nat` with the three `iota` values. -/
def hashLocationStart : Nat := 0

/-- The selector placing the hash at the first period in the filename. -/
def hashLocationFirstPeriod : Nat := 1

/-- The selector appending the hash at the end of the filename with the
extension copied after it. -/
def hashLocationEnd : Nat := 2

/-- The default hash location set by `NewFS`: both revisions in the source set
`hashLocationDefault = hashLocationFirstPeriod`. -/
def hashLocationDefault : Nat := hashLocationFirstPeriod

/-- State of a `hashfs.FS`: the forward cache (path to hashed path), the
reverse cache (hashed path to original path and hash), and the configured
hash location.  Revision 1 names the fields `m`, `r`, `hl`; revision 2 names
them `pathToHashPath`, `hashPathReverse` (of `reverse` structs), and
`hashLocation`. -/
structure FS where
  m : List (GoStr × GoStr)
  r : List (GoStr × (GoStr × GoStr))
  hl : Nat
deriving DecidableEq

/-- A fresh `FS` with empty caches and the given hash location. -/
def initFS (hl : Nat) : FS := ⟨[], [], hl⟩

/-- Embedding of `NewFS`: empty caches, default hash location, then the given
option functions applied in order. -/
def NewFS (options : List (FS → FS)) : FS :=
  options.foldl (fun s o => o s) (initFS hashLocationDefault)

/-- Embedding of the `HashLocationStart` option. -/
def HashLocationStart : FS → FS := fun s => { s with hl := hashLocationStart }

/-- Embedding of the `HashLocationEnd` option. -/
def HashLocationEnd : FS → FS := fun s => { s with hl := hashLocationEnd }

/-- Embedding of the `HashLocationFirstPeriod` option. -/
def HashLocationFirstPeriod : FS → FS := fun s => { s with hl := hashLocationFirstPeriod }

/-- Embedding of `fsys.Open` on the backing filesystem: per the `fs.FS`
contract, names failing `fs.ValidPath` are rejected; otherwise the entry, if
present. -/
def fsysOpen (fsys : GoFS) (name : GoStr) : Option GoEntry :=
  if fsValidPath name then fsys name else none

/-- Embedding of `fs.ReadFile` on the backing filesystem: contents of the
regular file at a valid path; errors (invalid path, absent entry, directory)
collapse to `none`. -/
def readFile (fsys : GoFS) (name : GoStr) : Option (List Nat) :=
  match fsysOpen fsys name with
  | some (GoEntry.file c) => some c
  | _ => none

/-- Embedding of revision 1's `FormatName(filename, hash string, hl
hashLocation) string`. -/
def FormatName (filename hash : GoStr) (hl : Nat) : GoStr :=
  if filename = [] then []
  else if hash = [] then filename
  else
    let dir := (pathSplit filename).1
    let base := (pathSplit filename).2
    if hl = hashLocationFirstPeriod then
      match stringsIndexDot base with
      | some i => pathJoin2 dir (base.take i ++ '-' :: hash ++ base.drop i)
      | none => pathJoin2 dir (base ++ '-' :: hash)
    else if hl = hashLocationStart then
      pathJoin2 dir (hash ++ '.' :: base)
    else if hl = hashLocationEnd then
      pathJoin2 dir (base ++ '.' :: hash ++ pathExt base)
    else []

/-- Embedding of the package-level `ParseName(filename string) (base, hash
string)`: split off the directory, take the part of the base name before the
first period, and if the unanchored regexp `-[0-9a-f]{64}` matches it, strip
the final 65 characters (reattaching the extension) and return the final 64
characters as the hash. -/
def ParseName (filename : GoStr) : GoStr × GoStr :=
  if filename = [] then ([], [])
  else
    let dir := (pathSplit filename).1
    let base := (pathSplit filename).2
    let pre := match stringsIndexDot base with
      | some i => base.take i
      | none => base
    let ext := match stringsIndexDot base with
      | some i => base.drop i
      | none => []
    if containsHashToken pre then
      (pathJoin2 dir (pre.take (pre.length - 65) ++ ext), pre.drop (pre.length - 64))
    else (filename, [])

/-- Embedding of the method `(fsys *FS) ParseName`: prefer the reverse cache,
falling back to the package-level parser. -/
def FSParseName (s : FS) (filename : GoStr) : GoStr × GoStr :=
  match goGet s.r filename with
  | some pr => pr
  | none => ParseName filename

/-- Which branch of `HashName` produced the result: the forward-cache fast
path, a fresh hash computation, or the read-failure fallback. -/
inductive HNSrc where
  | cache : HNSrc
  | computed : HNSrc
  | readFailed : HNSrc
deriving DecidableEq

/-- Result of `HashName`: the returned string, the state after the call, and
which branch produced the result. -/
structure HNRes where
  out : GoStr
  st : FS
  src : HNSrc
deriving DecidableEq

/-- Embedding of revision 1's `HashName`: serve a nonempty cached entry;
otherwise read the file (returning the name unchanged on failure), hash it,
format the hashed name, and store the forward and reverse entries. -/
def HashName (fsys : GoFS) (digest : List Nat → List Nat) (s : FS) (name : GoStr) : HNRes :=
  if goGetD s.m name ≠ [] then ⟨goGetD s.m name, s, HNSrc.cache⟩
  else
    match readFile fsys name with
    | none => ⟨name, s, HNSrc.readFailed⟩
    | some buf =>
      let hashhex := hexEncode (digest buf)
      let hashname := FormatName name hashhex s.hl
      ⟨hashname,
        { s with m := goSet s.m name hashname, r := goSet s.r hashname (name, hashhex) },
        HNSrc.computed⟩

/-- Result of revision 1's `open`: the opened backing entry, the parsed hash,
and the state after the call. -/
structure OpenRes where
  file : Option GoEntry
  hash : GoStr
  st : FS
deriving DecidableEq

/-- Embedding of revision 1's `open`: parse the name; if a hash was parsed and
re-deriving the hashed name of the base reproduces the request, open the base,
otherwise open the request literally.  Go's `&&` short-circuits, so `HashName`
runs (and can mutate the caches) only when the parsed hash is nonempty. -/
def openFS (fsys : GoFS) (digest : List Nat → List Nat) (s : FS) (name : GoStr) : OpenRes :=
  let base := (FSParseName s name).1
  let hash := (FSParseName s name).2
  if hash ≠ [] then
    let hn := HashName fsys digest s base
    if hn.out = name then ⟨fsysOpen fsys base, hash, hn.st⟩
    else ⟨fsysOpen fsys name, hash, hn.st⟩
  else ⟨fsysOpen fsys name, hash, s⟩

/-- An HTTP request, reduced to the parts `ServeHTTP` inspects. -/
structure Request where
  method : GoStr
  urlPath : GoStr

/-- An HTTP response, reduced to the parts the claims are about: status code,
the two cache headers, and the served body. -/
structure Response where
  status : Nat
  cacheControl : Option GoStr
  etag : Option GoStr
  body : Option (List Nat)
deriving DecidableEq

/-- The `Cache-Control` value revision 1's `ServeHTTP` sets on hashed
responses. -/
def cacheControlValue : GoStr := gs "public, max-age=31536000"

/-- The filename `ServeHTTP` derives from the request URL path: `/` maps to
`.`, otherwise the leading slash is trimmed, then `path.Clean` runs. -/
def requestFilename (req : Request) : GoStr :=
  pathClean (if req.urlPath = ['/'] then ['.']
             else match req.urlPath with
                  | '/' :: rest => rest
                  | other => other)

/-- Embedding of revision 1's `ServeHTTP`: open the request filename, map
open failure to 404 and directories to 403, set `Cache-Control` and a quoted
`ETag` only when a hash was parsed, then serve the content (no body for
HEAD). -/
def ServeHTTP (fsys : GoFS) (digest : List Nat → List Nat) (s : FS) (req : Request) :
    Response × FS :=
  let o := openFS fsys digest s (requestFilename req)
  match o.file with
  | none => (⟨404, none, none, none⟩, o.st)
  | some GoEntry.dir => (⟨403, none, none, none⟩, o.st)
  | some (GoEntry.file c) =>
    (⟨200,
      if o.hash ≠ [] then some cacheControlValue else none,
      if o.hash ≠ [] then some ('"' :: o.hash ++ ['"']) else none,
      if req.method = gs "HEAD" then none else some c⟩, o.st)

/-- Embedding of revision 2's `addHashToFilname(filename, hash string)`:
returns empty on missing filename or hash, else splices the hash at the
configured location, separating with a dash. -/
def addHashToFilname (hl : Nat) (filename hash : GoStr) : GoStr :=
  if filename = [] then []
  else if hash = [] then []
  else if hl = hashLocationFirstPeriod then
    match stringsIndexDot filename with
    | none => filename ++ '-' :: hash
    | some i => filename.take i ++ '-' :: hash ++ filename.drop i
  else if hl = hashLocationStart then
    hash ++ '-' :: filename
  else if hl = hashLocationEnd then
    filename ++ '-' :: hash ++ pathExt filename
  else []

/-- Embedding of revision 2's `createHashedPath`: serve any cached entry
(comma-ok check); otherwise read the file (propagating the error), hash and
encode, splice the hash into the file name, and store the forward entry under
the full path but the reverse entry under the bare hashed file name, exactly
as the source does. -/
def createHashedPath (fsys : GoFS) (digest : List Nat → List Nat) (s : FS) (filepath : GoStr) :
    Except Unit GoStr × FS :=
  match goGet s.m filepath with
  | some p => (Except.ok p, s)
  | none =>
    match readFile fsys filepath with
    | none => (Except.error (), s)
    | some b =>
      let encodedHash := hexEncode (digest b)
      let dir := (pathSplit filepath).1
      let filename := (pathSplit filepath).2
      let fileNameWithHash := addHashToFilname s.hl filename encodedHash
      let filepathWithHash := pathJoin2 dir fileNameWithHash
      (Except.ok filepathWithHash,
        { s with m := goSet s.m filepath filepathWithHash,
                 r := goSet s.r fileNameWithHash (filepath, encodedHash) })

/-- Embedding of revision 2's `lookupFromHashedPath`: reverse-cache lookup
with a comma-ok result. -/
def lookupFromHashedPath (s : FS) (filepathWithHash : GoStr) : GoStr × GoStr × Bool :=
  match goGet s.r filepathWithHash with
  | some pr => (pr.1, pr.2, true)
  | none => ([], [], false)

/-- Embedding of revision 2's `open`: reverse-look up the requested path; on a
miss open the request literally with an empty hash.  It never mutates the
caches. -/
def openFS2 (fsys : GoFS) (s : FS) (filepathWithHash : GoStr) : Option GoEntry × GoStr :=
  let l := lookupFromHashedPath s filepathWithHash
  if l.2.2 then (fsysOpen fsys l.1, l.2.1)
  else (fsysOpen fsys filepathWithHash, l.2.1)

/-- Modelled from the spec: `GetHashPath`, the public translate operation of
the revision whose implementation is absent from the sources (the tests call
it).  Per the spec's translate contract, a read failure degrades to returning
the original path unchanged with no error surfaced. -/
def GetHashPath (fsys : GoFS) (digest : List Nat → List Nat) (s : FS) (p : GoStr) :
    GoStr × FS :=
  match createHashedPath fsys digest s p with
  | (Except.ok hp, s1) => (hp, s1)
  | (Except.error _, s1) => (p, s1)

deriving instance DecidableEq for Except

/-- The part of the base name before the first period, as computed inside
`ParseName` (its `pre` local). -/
def parsePre (filename : GoStr) : GoStr :=
  match stringsIndexDot (pathSplit filename).2 with
  | some i => ((pathSplit filename).2).take i
  | none => (pathSplit filename).2

/-- A stand-in digest used to instantiate the digest parameter at concrete
inputs: like sha256 it always returns 32 bytes. -/
def digest0 : List Nat → List Nat := fun _ => List.replicate 32 0

/-- The hex encoding of `digest0`'s output: 64 zero characters. -/
def hexZero64 : GoStr := List.replicate 64 '0'

/-- A concrete 64-character lowercase hex string. -/
def hexA64 : GoStr := List.replicate 64 'a'

/-- A one-file backing filesystem holding `script.js`. -/
def fsysScript : GoFS := fun n => if n = gs "script.js" then some (GoEntry.file []) else none

/-- A one-file backing filesystem holding `d/a.js`, a file inside a
directory. -/
def fsysSubdir : GoFS := fun n => if n = gs "d/a.js" then some (GoEntry.file []) else none

/-- A backing filesystem with no files at all. -/
def fsysEmpty : GoFS := fun _ => none

/-- The name of a literal file that merely looks hashed: its pre-period part
ends with a dash and 64 lowercase hex characters, but it was never produced by
translation. -/
def lookalikeName : GoStr := gs "style-" ++ hexA64 ++ gs ".css"

/-- A backing filesystem containing only the hash-lookalike literal file (in
particular, `style.css` does not exist). -/
def fsysLookalike : GoFS := fun n => if n = lookalikeName then some (GoEntry.file [7]) else none

/-- A GET request for the hash-lookalike file. -/
def lookalikeReq : Request := ⟨gs "GET", '/' :: lookalikeName⟩

/-- The extension part split off by `ParseName` (its `ext` local): the base
name from the first period on, or empty. -/
def parseExtPart (filename : GoStr) : GoStr :=
  match stringsIndexDot (pathSplit filename).2 with
  | some i => ((pathSplit filename).2).drop i
  | none => []

/-- A good path element: nonempty, slash-free, and not a dot element.  These
are the elements `fs.ValidPath` admits. -/
def goodElem (e : GoStr) : Prop :=
  e ≠ [] ∧ '/' ∉ e ∧ e ≠ ['.'] ∧ e ≠ ['.', '.']

/-- Directory prefixes in the form `path.Split` produces for valid paths: a
possibly empty sequence of good elements, each followed by a slash. -/
inductive DirGood : GoStr → Prop where
  | nil : DirGood []
  | cons (e d : GoStr) : goodElem e → DirGood d → DirGood (e ++ '/' :: d)

/-- The shape of an encoded sha256 digest: 64 characters, none of them a slash
or a period. -/
def HashHex (h : GoStr) : Prop :=
  h.length = 64 ∧ '/' ∉ h ∧ '.' ∉ h

/-- The hashed base name `FormatName` builds before joining it back onto the
directory, split out for reasoning about `FormatName`. -/
def splice (hl : Nat) (b h : GoStr) : GoStr :=
  if hl = hashLocationFirstPeriod then
    match stringsIndexDot b with
    | some i => b.take i ++ '-' :: h ++ b.drop i
    | none => b ++ '-' :: h
  else if hl = hashLocationStart then h ++ '.' :: b
  else b ++ '.' :: h ++ pathExt b

/-- Every forward-cache key denotes a readable file.  This is the part of the
cache invariant that read-failure claims need. -/
def cachedReadable (fsys : GoFS) (s : FS) : Prop :=
  ∀ p v, goGet s.m p = some v → readFile fsys p ≠ none

/-- The cache coherence invariant of revision 1: a valid hash location; every
forward entry records the formatted name of the file's current digest and has
a matching reverse entry; and every reverse entry points back to its forward
entry. -/
def INV (fsys : GoFS) (digest : List Nat → List Nat) (s : FS) : Prop :=
  s.hl < 3 ∧
  (∀ p hp, goGet s.m p = some hp →
    ∃ c, readFile fsys p = some c ∧
      hp = FormatName p (hexEncode (digest c)) s.hl ∧
      goGet s.r hp = some (p, hexEncode (digest c))) ∧
  (∀ hp q h, goGet s.r hp = some (q, h) → goGet s.m q = some hp)

/-- States reachable by revision 1's operations from a freshly constructed
`FS` (any of the three hash locations, as the option functions allow). -/
inductive Reachable (fsys : GoFS) (digest : List Nat → List Nat) : FS → Prop where
  | init (hl : Nat) : hl < 3 → Reachable fsys digest (initFS hl)
  | stepHash (s : FS) (name : GoStr) :
      Reachable fsys digest s → Reachable fsys digest (HashName fsys digest s name).st
  | stepOpen (s : FS) (name : GoStr) :
      Reachable fsys digest s → Reachable fsys digest (openFS fsys digest s name).st
  | stepServe (s : FS) (req : Request) :
      Reachable fsys digest s → Reachable fsys digest (ServeHTTP fsys digest s req).2

/-- States reachable by revision 2's operations from a freshly constructed
`FS` (revision 2's `open` does not mutate the caches). -/
inductive Reachable2 (fsys : GoFS) (digest : List Nat → List Nat) : FS → Prop where
  | init (hl : Nat) : hl < 3 → Reachable2 fsys digest (initFS hl)
  | stepCreate (s : FS) (p : GoStr) :
      Reachable2 fsys digest s → Reachable2 fsys digest (createHashedPath fsys digest s p).2
  | stepGet (s : FS) (p : GoStr) :
      Reachable2 fsys digest s → Reachable2 fsys digest (GetHashPath fsys digest s p).2

/-- C5 (code bug): the source sets `hashLocationDefault = hashLocationFirstPeriod`
in both revisions, so an `FS` constructed without an insertion-location option
hashes at the first period, not at the suffix: `script.js` becomes
`script-<hash>.js` rather than the `script.js-<hash>.js` the repository's own
tests and README expect of the default. -/
theorem default_hash_location_is_first_period :
    hashLocationDefault = hashLocationFirstPeriod ∧
    (NewFS []).hl = hashLocationFirstPeriod ∧
    (HashName fsysScript digest0 (NewFS []) (gs "script.js")).out
      = gs "script-" ++ hexZero64 ++ gs ".js" ∧
    (HashName fsysScript digest0 (NewFS []) (gs "script.js")).out
      ≠ gs "script.js-" ++ hexZero64 ++ gs ".js" := by
  decide

/-- C6 (code bug): revision 2's `addHashToFilname` implements the suffix
policy as the claim states (`script.min.js` → `script.min.js-<hash>.js`),
but revision 1's `FormatName` uses a period instead of the dash
(`script.min.js` → `script.min.js.<hash>.js`), contradicting the dash format
promised by the repository's README, tests, and revision 2. -/
theorem suffix_policy_separator_divergence :
    addHashToFilname hashLocationEnd (gs "script.min.js") hexA64
      = gs "script.min.js-" ++ hexA64 ++ gs ".js" ∧
    FormatName (gs "script.min.js") hexA64 hashLocationEnd
      = gs "script.min.js." ++ hexA64 ++ gs ".js" ∧
    FormatName (gs "script.min.js") hexA64 hashLocationEnd
      ≠ gs "script.min.js-" ++ hexA64 ++ gs ".js" := by
  decide

/-- C2 (code bug): revision 2's `createHashedPath` stores the reverse entry
under the bare hashed file name instead of the hashed path, so after
translating `d/a.js` the forward cache maps `d/a.js` to `d/a-<hash>.js` while
the reverse cache has no entry for `d/a-<hash>.js` (only for `a-<hash>.js`),
and revision 2's `open` consequently fails to resolve the hashed path. -/
theorem rev2_reverse_cache_keyed_by_filename :
    (createHashedPath fsysSubdir digest0 (initFS hashLocationDefault) (gs "d/a.js")).1
      = Except.ok (gs "d/a-" ++ hexZero64 ++ gs ".js") ∧
    goGet (createHashedPath fsysSubdir digest0 (initFS hashLocationDefault) (gs "d/a.js")).2.m
      (gs "d/a.js") = some (gs "d/a-" ++ hexZero64 ++ gs ".js") ∧
    goGet (createHashedPath fsysSubdir digest0 (initFS hashLocationDefault) (gs "d/a.js")).2.r
      (gs "d/a-" ++ hexZero64 ++ gs ".js") = none ∧
    goGet (createHashedPath fsysSubdir digest0 (initFS hashLocationDefault) (gs "d/a.js")).2.r
      (gs "a-" ++ hexZero64 ++ gs ".js") = some (gs "d/a.js", hexZero64) ∧
    (openFS2 fsysSubdir (createHashedPath fsysSubdir digest0 (initFS hashLocationDefault) (gs "d/a.js")).2
      (gs "d/a-" ++ hexZero64 ++ gs ".js")).1 = none := by
  decide

/-- C7 (counterexample): `ParseName` uses the unanchored regexp
`-[0-9a-f]{64}`, so on the filename `-aaaa…a z` (a dash, 64 `a`s, then `z`)
it returns a nonempty hash (the last 64 characters, `aaa…az`) even though the
part before the first period does not end with a dash followed by 64 lowercase
hex characters, contradicting the claimed `exactly when` and the claimed
`otherwise returns the filename unchanged with an empty hash`. -/
theorem parse_name_accepts_nonsuffix_token :
    (ParseName ('-' :: hexA64 ++ ['z'])).2 ≠ [] ∧
    endsWithHashToken (parsePre ('-' :: hexA64 ++ ['z'])) = false ∧
    ParseName ('-' :: hexA64 ++ ['z']) ≠ ('-' :: hexA64 ++ ['z'], []) := by
  decide

/-- C8 (counterexample): for a path whose content cannot be read, the second
`HashName` call is not answered from the forward cache (the cache holds no
entry for the path); it takes the read-failure branch again, refuting the
claim's `for every path p … the second call is answered from the forward
cache`. -/
theorem second_call_not_from_cache_on_read_failure :
    (HashName fsysEmpty digest0 (initFS hashLocationDefault) (gs "missing.js")).out
      = gs "missing.js" ∧
    goGetD (HashName fsysEmpty digest0 (initFS hashLocationDefault) (gs "missing.js")).st.m
      (gs "missing.js") = [] ∧
    (HashName fsysEmpty digest0
      (HashName fsysEmpty digest0 (initFS hashLocationDefault) (gs "missing.js")).st
      (gs "missing.js")).src = HNSrc.readFailed ∧
    (HashName fsysEmpty digest0
      (HashName fsysEmpty digest0 (initFS hashLocationDefault) (gs "missing.js")).st
      (gs "missing.js")).src ≠ HNSrc.cache := by
  decide

/-- C4 (counterexample): revision 1's `ServeHTTP` answers a hash-resolved
request with `Cache-Control: public, max-age=31536000` (no `immutable`
directive) and with an `ETag` that is the resolved hash wrapped in double
quotes, not the bare hash the claim states. -/
theorem headers_lack_immutable_and_quote_etag :
    (openFS fsysLookalike digest0 (initFS hashLocationDefault) (requestFilename lookalikeReq)).hash
      ≠ [] ∧
    (ServeHTTP fsysLookalike digest0 (initFS hashLocationDefault) lookalikeReq).1.status = 200 ∧
    (ServeHTTP fsysLookalike digest0 (initFS hashLocationDefault) lookalikeReq).1.cacheControl
      = some (gs "public, max-age=31536000") ∧
    (ServeHTTP fsysLookalike digest0 (initFS hashLocationDefault) lookalikeReq).1.cacheControl
      ≠ some (gs "public, max-age=31536000, immutable") ∧
    (ServeHTTP fsysLookalike digest0 (initFS hashLocationDefault) lookalikeReq).1.etag
      = some ('"' :: hexA64 ++ ['"']) ∧
    (ServeHTTP fsysLookalike digest0 (initFS hashLocationDefault) lookalikeReq).1.etag
      ≠ some (openFS fsysLookalike digest0 (initFS hashLocationDefault)
               (requestFilename lookalikeReq)).hash := by
  decide

/-- C10: there is a literal backing file that was never produced by
translation (the caches start empty and `style.css` does not exist) whose
pre-period base name ends with a dash and 64 lowercase hex characters; the
revision 1 `open` returns that literal file together with a nonempty hash,
and the HTTP handler therefore serves it with the long-lived `Cache-Control`
header and an `ETag` set. -/
theorem lookalike_literal_file_served_with_cache_headers :
    fsysOpen fsysLookalike lookalikeName = some (GoEntry.file [7]) ∧
    readFile fsysLookalike (gs "style.css") = none ∧
    endsWithHashToken (parsePre lookalikeName) = true ∧
    (initFS hashLocationDefault).m = [] ∧
    (initFS hashLocationDefault).r = [] ∧
    (openFS fsysLookalike digest0 (initFS hashLocationDefault) lookalikeName).file
      = some (GoEntry.file [7]) ∧
    (openFS fsysLookalike digest0 (initFS hashLocationDefault) lookalikeName).hash = hexA64 ∧
    hexA64 ≠ [] ∧
    (ServeHTTP fsysLookalike digest0 (initFS hashLocationDefault) lookalikeReq).1.status = 200 ∧
    (ServeHTTP fsysLookalike digest0 (initFS hashLocationDefault) lookalikeReq).1.cacheControl
      = some cacheControlValue ∧
    (ServeHTTP fsysLookalike digest0 (initFS hashLocationDefault) lookalikeReq).1.etag
      = some ('"' :: hexA64 ++ ['"']) := by
  decide

/-! ### Supporting lemmas and the remaining claim theorems -/

theorem goGet_nil {α : Type} (k : GoStr) : goGet ([] : List (GoStr × α)) k = none := rfl

theorem goGet_cons {α : Type} (e : GoStr × α) (t : List (GoStr × α)) (k : GoStr) :
    goGet (e :: t) k = if e.1 = k then some e.2 else goGet t k := rfl

theorem goGet_map_overwrite {α : Type} (t : List (GoStr × α)) (k : GoStr) (v : α) :
    goGet (t.map (fun e => if e.1 = k then (k, v) else e)) k
      = if goHasKey t k then some v else none := by
  induction t with
  | nil => simp [goGet, goHasKey]
  | cons e t ih =>
    by_cases he : e.1 = k
    · simp [goGet, goHasKey, he]
    · simp [goGet, goHasKey, he, ih]

theorem goGet_map_overwrite_ne {α : Type} (t : List (GoStr × α)) (k k' : GoStr) (v : α)
    (h : k' ≠ k) :
    goGet (t.map (fun e => if e.1 = k then (k, v) else e)) k' = goGet t k' := by
  induction t with
  | nil => simp
  | cons e t ih =>
    by_cases he : e.1 = k
    · simp [goGet, he, Ne.symm h, ih]
    · simp only [List.map_cons, if_neg he, goGet_cons]
      by_cases hek : e.1 = k' <;> simp [hek, ih]

theorem goGet_append_single_ne {α : Type} (m : List (GoStr × α)) (k k' : GoStr) (v : α)
    (h : k' ≠ k) : goGet (m ++ [(k, v)]) k' = goGet m k' := by
  induction m with
  | nil => simp [goGet, Ne.symm h]
  | cons e t ih =>
    by_cases hek : e.1 = k' <;> simp [goGet, hek, ih]

theorem goGet_eq_none_of_hasKey_eq_false {α : Type} (m : List (GoStr × α)) (k : GoStr)
    (h : goHasKey m k = false) : goGet m k = none := by
  induction m with
  | nil => rfl
  | cons e t ih =>
    by_cases hek : e.1 = k
    · simp [goHasKey, hek] at h
    · simp only [goHasKey, if_neg hek] at h
      simp [goGet, hek, ih h]

theorem goGet_goSet_self {α : Type} (m : List (GoStr × α)) (k : GoStr) (v : α) :
    goGet (goSet m k v) k = some v := by
  unfold goSet
  split
  next hany => rw [goGet_map_overwrite, if_pos hany]
  next hany =>
    have hnone : goGet m k = none :=
      goGet_eq_none_of_hasKey_eq_false m k (by simpa using hany)
    induction m with
    | nil => simp [goGet]
    | cons e t ih =>
      by_cases hek : e.1 = k
      · simp [goGet, hek] at hnone
      · simp only [goGet_cons, if_neg hek] at hnone
        simp only [List.cons_append, goGet_cons, if_neg hek]
        exact ih (by
          simp only [goHasKey, if_neg hek] at hany
          simpa using hany) hnone

theorem goGet_goSet_ne {α : Type} (m : List (GoStr × α)) (k k' : GoStr) (v : α)
    (h : k' ≠ k) : goGet (goSet m k v) k' = goGet m k' := by
  unfold goSet
  split
  next => exact goGet_map_overwrite_ne m k k' v h
  next => exact goGet_append_single_ne m k k' v h

theorem pathClean_ne_nil (p : GoStr) : pathClean p ≠ [] := by
  unfold pathClean
  split
  · simp
  · dsimp only
    split <;> (split <;> simp_all [List.length_tail])

theorem pathJoin2_ne_nil_right (d x : GoStr) (hx : x ≠ []) : pathJoin2 d x ≠ [] := by
  unfold pathJoin2
  by_cases hd : d = [] <;> simp [hd, hx, pathClean_ne_nil]

theorem fsValidPath_ne_nil (p : GoStr) (h : fsValidPath p = true) : p ≠ [] := by
  intro hp
  subst hp
  simp [fsValidPath, splitSlash, validElem] at h

theorem readFile_valid (fsys : GoFS) (p : GoStr) (b : List Nat)
    (h : readFile fsys p = some b) : fsValidPath p = true := by
  unfold readFile fsysOpen at h
  by_cases hv : fsValidPath p = true
  · exact hv
  · rw [if_neg hv] at h; simp at h

theorem FormatName_ne_nil (p h : GoStr) (hl : Nat) (hp : p ≠ []) (hhl : hl < 3) :
    FormatName p h hl ≠ [] := by
  unfold FormatName
  rw [if_neg hp]
  by_cases hh : h = []
  · rw [if_pos hh]; exact hp
  · rw [if_neg hh]
    interval_cases hl
    · simp only [hashLocationFirstPeriod, hashLocationStart, hashLocationEnd]
      norm_num
      exact pathJoin2_ne_nil_right _ _ (by simp)
    · simp only [hashLocationFirstPeriod, hashLocationStart, hashLocationEnd]
      norm_num
      split
      · exact pathJoin2_ne_nil_right _ _ (by simp)
      · exact pathJoin2_ne_nil_right _ _ (by simp)
    · simp only [hashLocationFirstPeriod, hashLocationStart, hashLocationEnd]
      norm_num
      exact pathJoin2_ne_nil_right _ _ (by simp)

theorem goGetD_eq_of_goGet (m : List (GoStr × GoStr)) (k v : GoStr)
    (h : goGet m k = some v) : goGetD m k = v := by
  unfold goGetD
  rw [h]

theorem HashName_cached (fsys : GoFS) (digest : List Nat → List Nat) (s : FS) (p : GoStr)
    (h : goGetD s.m p ≠ []) :
    HashName fsys digest s p = ⟨goGetD s.m p, s, HNSrc.cache⟩ := by
  unfold HashName; rw [if_pos h]

theorem HashName_failed (fsys : GoFS) (digest : List Nat → List Nat) (s : FS) (p : GoStr)
    (h1 : goGetD s.m p = []) (h2 : readFile fsys p = none) :
    HashName fsys digest s p = ⟨p, s, HNSrc.readFailed⟩ := by
  unfold HashName; rw [if_neg (by simpa using h1), h2]

theorem HashName_computed (fsys : GoFS) (digest : List Nat → List Nat) (s : FS) (p : GoStr)
    (buf : List Nat) (h1 : goGetD s.m p = []) (h2 : readFile fsys p = some buf) :
    HashName fsys digest s p
      = ⟨FormatName p (hexEncode (digest buf)) s.hl,
         { s with
            m := goSet s.m p (FormatName p (hexEncode (digest buf)) s.hl),
            r := goSet s.r (FormatName p (hexEncode (digest buf)) s.hl)
                  (p, hexEncode (digest buf)) },
         HNSrc.computed⟩ := by
  unfold HashName; rw [if_neg (by simpa using h1), h2]

/-- C8 (amended): idempotent caching.  For every state with a valid hash
location and every path, calling `HashName` twice returns the same output and
the same state both times, the second call never recomputes a hash, and the
forward cache is no larger after the second call.  The second call is answered
from the forward cache only when the path is readable; on a read failure it
takes the fallback branch again (nothing was cached), not the cache branch the
claim describes. -/
theorem hashName_idempotent (fsys : GoFS) (digest : List Nat → List Nat)
    (s : FS) (p : GoStr) (hhl : s.hl < 3) :
    (HashName fsys digest (HashName fsys digest s p).st p).out
      = (HashName fsys digest s p).out ∧
    (HashName fsys digest (HashName fsys digest s p).st p).st
      = (HashName fsys digest s p).st ∧
    (HashName fsys digest (HashName fsys digest s p).st p).st.m.length
      = (HashName fsys digest s p).st.m.length ∧
    (HashName fsys digest (HashName fsys digest s p).st p).src ≠ HNSrc.computed ∧
    (readFile fsys p ≠ none →
      (HashName fsys digest (HashName fsys digest s p).st p).src = HNSrc.cache) := by
  by_cases hc : goGetD s.m p ≠ []
  · rw [HashName_cached fsys digest s p hc]
    rw [HashName_cached fsys digest s p hc]
    simp
  · push_neg at hc
    cases hr : readFile fsys p with
    | none =>
      rw [HashName_failed fsys digest s p hc hr]
      rw [HashName_failed fsys digest s p hc hr]
      simp [hr]
    | some buf =>
      have hp : p ≠ [] := fsValidPath_ne_nil p (readFile_valid fsys p buf hr)
      have hfn : FormatName p (hexEncode (digest buf)) s.hl ≠ [] :=
        FormatName_ne_nil p _ s.hl hp hhl
      have hcget : goGetD (goSet s.m p (FormatName p (hexEncode (digest buf)) s.hl)) p
          = FormatName p (hexEncode (digest buf)) s.hl :=
        goGetD_eq_of_goGet _ _ _ (goGet_goSet_self _ _ _)
      rw [HashName_computed fsys digest s p buf hc hr]
      rw [HashName_cached fsys digest _ p (by dsimp only; rw [hcget]; exact hfn)]
      dsimp only
      rw [hcget]
      simp

theorem createHashedPath_cached (fsys : GoFS) (digest : List Nat → List Nat) (s : FS)
    (p v : GoStr) (h : goGet s.m p = some v) :
    createHashedPath fsys digest s p = (Except.ok v, s) := by
  unfold createHashedPath; rw [h]

theorem createHashedPath_failed (fsys : GoFS) (digest : List Nat → List Nat) (s : FS)
    (p : GoStr) (h1 : goGet s.m p = none) (h2 : readFile fsys p = none) :
    createHashedPath fsys digest s p = (Except.error (), s) := by
  unfold createHashedPath; rw [h1, h2]

theorem createHashedPath_computed (fsys : GoFS) (digest : List Nat → List Nat) (s : FS)
    (p : GoStr) (b : List Nat) (h1 : goGet s.m p = none) (h2 : readFile fsys p = some b) :
    createHashedPath fsys digest s p
      = (Except.ok (pathJoin2 (pathSplit p).1
           (addHashToFilname s.hl (pathSplit p).2 (hexEncode (digest b)))),
         { s with
            m := goSet s.m p (pathJoin2 (pathSplit p).1
                  (addHashToFilname s.hl (pathSplit p).2 (hexEncode (digest b)))),
            r := goSet s.r (addHashToFilname s.hl (pathSplit p).2 (hexEncode (digest b)))
                  (p, hexEncode (digest b)) }) := by
  unfold createHashedPath; rw [h1, h2]

theorem openFS_st (fsys : GoFS) (digest : List Nat → List Nat) (s : FS) (name : GoStr) :
    (openFS fsys digest s name).st = s ∨
    ∃ q, (openFS fsys digest s name).st = (HashName fsys digest s q).st := by
  unfold openFS
  by_cases h1 : (FSParseName s name).2 ≠ []
  · by_cases h2 : (HashName fsys digest s (FSParseName s name).1).out = name
    · right; exact ⟨(FSParseName s name).1, by simp [h1, h2]⟩
    · right; exact ⟨(FSParseName s name).1, by simp [h1, h2]⟩
  · left; simp [h1]

theorem serveHTTP_st (fsys : GoFS) (digest : List Nat → List Nat) (s : FS) (req : Request) :
    (ServeHTTP fsys digest s req).2 = (openFS fsys digest s (requestFilename req)).st := by
  unfold ServeHTTP
  dsimp only
  split <;> rfl

theorem getHashPath_st (fsys : GoFS) (digest : List Nat → List Nat) (s : FS) (p : GoStr) :
    (GetHashPath fsys digest s p).2 = (createHashedPath fsys digest s p).2 := by
  unfold GetHashPath
  rcases h : createHashedPath fsys digest s p with ⟨r, s1⟩
  cases r <;> simp

theorem cachedReadable_goSet (fsys : GoFS) (name hn : GoStr)
    (m : List (GoStr × GoStr))
    (hcr : ∀ p v, goGet m p = some v → readFile fsys p ≠ none)
    (hread : readFile fsys name ≠ none) :
    ∀ p v, goGet (goSet m name hn) p = some v → readFile fsys p ≠ none := by
  intro p v hv
  by_cases hp : p = name
  · subst hp; exact hread
  · rw [goGet_goSet_ne m name p hn hp] at hv
    exact hcr p v hv

theorem cachedReadable_HashName (fsys : GoFS) (digest : List Nat → List Nat) (s : FS)
    (name : GoStr) (hcr : cachedReadable fsys s) :
    cachedReadable fsys (HashName fsys digest s name).st := by
  by_cases hc : goGetD s.m name ≠ []
  · rw [HashName_cached fsys digest s name hc]; exact hcr
  · push_neg at hc
    cases hr : readFile fsys name with
    | none => rw [HashName_failed fsys digest s name hc hr]; exact hcr
    | some buf =>
      rw [HashName_computed fsys digest s name buf hc hr]
      intro p v hv
      exact cachedReadable_goSet fsys name _ s.m hcr (by rw [hr]; simp) p v hv

theorem reachable_cachedReadable (fsys : GoFS) (digest : List Nat → List Nat) (s : FS)
    (h : Reachable fsys digest s) : cachedReadable fsys s := by
  induction h with
  | init hl _ => intro p v hv; simp [initFS, goGet] at hv
  | stepHash s name _ ih => exact cachedReadable_HashName fsys digest s name ih
  | stepOpen s name _ ih =>
    rcases openFS_st fsys digest s name with h | ⟨q, h⟩
    · rw [h]; exact ih
    · rw [h]; exact cachedReadable_HashName fsys digest s q ih
  | stepServe s req _ ih =>
    rw [serveHTTP_st]
    rcases openFS_st fsys digest s (requestFilename req) with h | ⟨q, h⟩
    · rw [h]; exact ih
    · rw [h]; exact cachedReadable_HashName fsys digest s q ih

theorem cachedReadable_createHashedPath (fsys : GoFS) (digest : List Nat → List Nat)
    (s : FS) (p : GoStr) (hcr : cachedReadable fsys s) :
    cachedReadable fsys (createHashedPath fsys digest s p).2 := by
  cases hg : goGet s.m p with
  | some v => rw [createHashedPath_cached fsys digest s p v hg]; exact hcr
  | none =>
    cases hr : readFile fsys p with
    | none => rw [createHashedPath_failed fsys digest s p hg hr]; exact hcr
    | some b =>
      rw [createHashedPath_computed fsys digest s p b hg hr]
      intro q v hv
      exact cachedReadable_goSet fsys p _ s.m hcr (by rw [hr]; simp) q v hv

theorem reachable2_cachedReadable (fsys : GoFS) (digest : List Nat → List Nat) (s : FS)
    (h : Reachable2 fsys digest s) : cachedReadable fsys s := by
  induction h with
  | init hl _ => intro p v hv; simp [initFS, goGet] at hv
  | stepCreate s p _ ih => exact cachedReadable_createHashedPath fsys digest s p ih
  | stepGet s p _ ih =>
    rw [getHashPath_st]
    exact cachedReadable_createHashedPath fsys digest s p ih

/-- C3: read-failure degradation.  For every reachable state of either revision
and every path whose content cannot be read from the backing filesystem,
`HashName` (revision 1), `createHashedPath` (revision 2) and the spec-modelled
`GetHashPath` wrapper return the original path unchanged (the wrapper surfaces
no error), and the state -- both caches included -- is exactly the state before
the call. -/
theorem translate_read_failure (fsys : GoFS) (digest : List Nat → List Nat)
    (s s2 : FS) (p : GoStr)
    (hs : Reachable fsys digest s) (hs2 : Reachable2 fsys digest s2)
    (hread : readFile fsys p = none) :
    HashName fsys digest s p = ⟨p, s, HNSrc.readFailed⟩ ∧
    createHashedPath fsys digest s2 p = (Except.error (), s2) ∧
    GetHashPath fsys digest s2 p = (p, s2) := by
  have hcr := reachable_cachedReadable fsys digest s hs
  have hcr2 := reachable2_cachedReadable fsys digest s2 hs2
  have hm : goGetD s.m p = [] := by
    cases hg : goGet s.m p with
    | none => simp [goGetD, hg]
    | some v => exact absurd hread (hcr p v hg)
  have hm2 : goGet s2.m p = none := by
    cases hg : goGet s2.m p with
    | none => rfl
    | some v => exact absurd hread (hcr2 p v hg)
  refine ⟨HashName_failed fsys digest s p hm hread,
          createHashedPath_failed fsys digest s2 p hm2 hread, ?_⟩
  unfold GetHashPath
  rw [createHashedPath_failed fsys digest s2 p hm2 hread]

/-- C4 (amended): response headers.  For every request that resolves to an
existing file, `ServeHTTP` answers 200; when the resolved hash is nonempty it
sets `Cache-Control` to exactly `public, max-age=31536000` -- with no
`immutable` directive -- and sets `ETag` to the hash wrapped in double quotes
rather than the bare hash; when the hash is empty it sets neither header. -/
theorem serve_headers (fsys : GoFS) (digest : List Nat → List Nat) (s : FS)
    (req : Request) (c : List Nat)
    (hfile : (openFS fsys digest s (requestFilename req)).file = some (GoEntry.file c)) :
    (ServeHTTP fsys digest s req).1.status = 200 ∧
    ((openFS fsys digest s (requestFilename req)).hash ≠ [] →
      (ServeHTTP fsys digest s req).1.cacheControl = some cacheControlValue ∧
      (ServeHTTP fsys digest s req).1.etag
        = some ('"' :: (openFS fsys digest s (requestFilename req)).hash ++ ['"'])) ∧
    ((openFS fsys digest s (requestFilename req)).hash = [] →
      (ServeHTTP fsys digest s req).1.cacheControl = none ∧
      (ServeHTTP fsys digest s req).1.etag = none) := by
  unfold ServeHTTP
  dsimp only
  rw [hfile]
  by_cases hh : (openFS fsys digest s (requestFilename req)).hash ≠ []
  · simp [hh]
  · push_neg at hh
    simp [hh]

theorem containsHashToken_length (s : GoStr) (h : containsHashToken s = true) :
    65 ≤ s.length := by
  induction s with
  | nil => simp [containsHashToken] at h
  | cons c rest ih =>
    simp only [containsHashToken, Bool.or_eq_true, Bool.and_eq_true] at h
    rcases h with ⟨_, hrun⟩ | h
    · simp only [hexRun64, Bool.and_eq_true, beq_iff_eq] at hrun
      have : (rest.take 64).length ≤ rest.length := by
        rw [List.length_take]; omega
      have h64 : (rest.take 64).length = 64 := hrun.1
      simp only [List.length_cons]
      omega
    · have := ih h
      simp only [List.length_cons]
      omega

theorem containsHashToken_of_token_suffix (a h : GoStr)
    (hlen : h.length = 64) (hhex : h.all isLowerHexDigit = true) :
    containsHashToken (a ++ '-' :: h) = true := by
  induction a with
  | nil =>
    simp only [List.nil_append, containsHashToken, Bool.or_eq_true, Bool.and_eq_true]
    left
    refine ⟨by simp, ?_⟩
    simp only [hexRun64, Bool.and_eq_true, beq_iff_eq]
    rw [List.take_of_length_le (by omega)]
    exact ⟨hlen, hhex⟩
  | cons c a ih =>
    simp only [List.cons_append, containsHashToken, Bool.or_eq_true]
    right
    exact ih

theorem endsWithHashToken_decompose (s : GoStr) (h : endsWithHashToken s = true) :
    s = s.take (s.length - 65) ++ '-' :: s.drop (s.length - 64) ∧
    (s.drop (s.length - 64)).length = 64 ∧
    (s.drop (s.length - 64)).all isLowerHexDigit = true := by
  simp only [endsWithHashToken, Bool.and_eq_true, decide_eq_true_eq, beq_iff_eq] at h
  obtain ⟨⟨hlen, hdask⟩, hhex⟩ := h
  have hidx : s.length - 65 < s.length := by omega
  refine ⟨?_, by rw [List.length_drop]; omega, hhex⟩
  conv_lhs => rw [← List.take_append_drop (s.length - 65) s]
  congr 1
  rw [List.drop_eq_getElem_cons hidx]
  congr 1
  · rw [← hdask, List.getD_eq_getElem s ' ' hidx]
  · congr 1
    omega

theorem parseName_eq (filename : GoStr) (h : filename ≠ []) :
    ParseName filename
      = (if containsHashToken (parsePre filename) then
           (pathJoin2 (pathSplit filename).1
              ((parsePre filename).take ((parsePre filename).length - 65)
                ++ parseExtPart filename),
            (parsePre filename).drop ((parsePre filename).length - 64))
         else (filename, [])) := by
  unfold ParseName parsePre parseExtPart
  rw [if_neg h]

/-- C7 (amended): hashed-name parsing heuristic.  `ParseName` returns a
nonempty hash exactly when the portion of the base name before the first
period contains -- anywhere, not only as a trailing token -- a dash followed
by 64 lowercase hexadecimal characters (the regexp `-[0-9a-f]{64}` is
unanchored).  When it matches, the returned hash is the final 64 characters of
that portion, and the base is rebuilt by dropping that portion's final 65
characters and reattaching the extension; otherwise the filename is returned
unchanged with an empty hash.  A trailing dash-plus-hash token (the spec's
condition) is a sufficient but not necessary trigger. -/
theorem parse_name_characterization (filename : GoStr) :
    ((ParseName filename).2 ≠ [] ↔ containsHashToken (parsePre filename) = true) ∧
    (containsHashToken (parsePre filename) = true →
      (ParseName filename).2
        = (parsePre filename).drop ((parsePre filename).length - 64) ∧
      (ParseName filename).2.length = 64 ∧
      (ParseName filename).1
        = pathJoin2 (pathSplit filename).1
            ((parsePre filename).take ((parsePre filename).length - 65)
              ++ parseExtPart filename)) ∧
    (containsHashToken (parsePre filename) = false → ParseName filename = (filename, [])) ∧
    (endsWithHashToken (parsePre filename) = true →
      containsHashToken (parsePre filename) = true) := by
  have hends : endsWithHashToken (parsePre filename) = true →
      containsHashToken (parsePre filename) = true := by
    intro he
    obtain ⟨hdec, hlen, hhex⟩ := endsWithHashToken_decompose (parsePre filename) he
    calc containsHashToken (parsePre filename)
        = containsHashToken ((parsePre filename).take ((parsePre filename).length - 65)
            ++ '-' :: (parsePre filename).drop ((parsePre filename).length - 64)) := by
          rw [← hdec]
      _ = true := containsHashToken_of_token_suffix _ _ hlen hhex
  by_cases hf : filename = []
  · subst hf
    have hct : containsHashToken (parsePre ([] : GoStr)) = false := rfl
    refine ⟨?_, ?_, fun _ => rfl, hends⟩
    · rw [hct]
      simp [ParseName]
    · intro hc
      rw [hct] at hc
      simp at hc
  · rw [parseName_eq filename hf]
    cases hct : containsHashToken (parsePre filename) with
    | true =>
      have h65 : 65 ≤ (parsePre filename).length := containsHashToken_length _ hct
      have hdroplen : ((parsePre filename).drop ((parsePre filename).length - 64)).length = 64 := by
        rw [List.length_drop]; omega
      have hne : (parsePre filename).drop ((parsePre filename).length - 64) ≠ [] := by
        intro hnil
        rw [hnil] at hdroplen
        simp at hdroplen
      refine ⟨by simp [hne], fun _ => by simp [hdroplen], ?_, fun _ => rfl⟩
      intro hcf
      simp at hcf
    | false =>
      refine ⟨by simp, ?_, fun _ => by simp, ?_⟩
      · intro hc
        simp at hc
      · intro he
        have := hends he
        rw [hct] at this
        simp at this

theorem takeWhile_all_eq (p : Char → Bool) (l : GoStr) (h : ∀ x ∈ l, p x = true) :
    l.takeWhile p = l := by
  induction l with
  | nil => rfl
  | cons c t ih =>
    rw [List.takeWhile_cons, h c (List.mem_cons_self c t)]
    rw [ih (fun x hx => h x (List.mem_cons_of_mem c hx))]
    simp

theorem dropWhile_all_eq (p : Char → Bool) (l : GoStr) (h : ∀ x ∈ l, p x = true) :
    l.dropWhile p = [] := by
  induction l with
  | nil => rfl
  | cons c t ih =>
    rw [List.dropWhile_cons, h c (List.mem_cons_self c t)]
    simp only [if_pos]
    exact ih (fun x hx => h x (List.mem_cons_of_mem c hx))

theorem noSlash_pred (l : GoStr) (h : '/' ∉ l) : ∀ x ∈ l, (!(x == '/')) = true := by
  intro x hx
  simp only [Bool.not_eq_true']
  simp only [beq_eq_false_iff_ne]
  intro he
  subst he
  exact h hx

theorem sep_norm (buf : GoStr) :
    (if ((false && buf.length != 1) || (!false && buf.length != 0) : Bool) then (['/'] : GoStr) else [])
      = if buf.length = 0 then [] else ['/'] := by
  by_cases hb : buf.length = 0 <;> simp [hb]

theorem cleanLoop_slash (f : Nat) (buf : GoStr) (dd : Nat) (rest : GoStr) :
    cleanLoop false (f + 1) buf dd ('/' :: rest) = cleanLoop false f buf dd rest := by
  rw [cleanLoop]

theorem cleanLoop_nil (fuel : Nat) (buf : GoStr) (dd : Nat) :
    cleanLoop false fuel buf dd [] = buf := by
  cases fuel <;> rw [cleanLoop]

theorem cleanLoop_good_elem (E : GoStr) (hE : goodElem E) (fuel : Nat) (buf : GoStr) (dd : Nat)
    (hfuel : E.length ≤ fuel) :
    cleanLoop false fuel buf dd E = buf ++ (if buf.length = 0 then [] else ['/']) ++ E := by
  obtain ⟨hne, hns, hd1, hd2⟩ := hE
  rcases E with _ | ⟨c, r⟩
  · exact absurd rfl hne
  rcases fuel with _ | f
  · simp at hfuel
  have hcs : c ≠ '/' := fun h => hns (h ▸ List.mem_cons_self c r)
  have hrs : '/' ∉ r := fun h => hns (List.mem_cons_of_mem c h)
  have htake : (c :: r).takeWhile (fun x => !(x == '/')) = c :: r :=
    takeWhile_all_eq _ _ (noSlash_pred _ hns)
  have hdropr : r.dropWhile (fun x => !(x == '/')) = [] :=
    dropWhile_all_eq _ _ (noSlash_pred _ hrs)
  by_cases hc : c = '.'
  · subst hc
    rcases r with _ | ⟨c2, r2⟩
    · exact absurd rfl hd1
    have hc2s : c2 ≠ '/' := fun h => hrs (h ▸ List.mem_cons_self c2 r2)
    by_cases hc2 : c2 = '.'
    · subst hc2
      have hr2ne : r2 ≠ [] := fun h => hd2 (by rw [h])
      have hr2s : '/' ∉ r2 := fun h => hrs (List.mem_cons_of_mem _ h)
      have hdropr2 : r2.dropWhile (fun x => !(x == '/')) = [] :=
        dropWhile_all_eq _ _ (noSlash_pred _ hr2s)
      rw [cleanLoop]
      rw [if_neg (by
        rintro (h | h)
        · exact hr2ne h
        · rcases r2 with _ | ⟨c3, r3⟩
          · exact hr2ne rfl
          · simp only [List.head?_cons, Option.some.injEq] at h
            exact hr2s (h ▸ List.mem_cons_self c3 r3))]
      rw [htake, hdropr2, cleanLoop_nil, sep_norm]
    · rw [cleanLoop]
      · rw [htake, hdropr, cleanLoop_nil, sep_norm]
      all_goals intros
      all_goals simp_all
  · rw [cleanLoop]
    · rw [htake, hdropr, cleanLoop_nil, sep_norm]
    all_goals intros
    all_goals simp_all

theorem cleanLoop_good_elem_slash (E : GoStr) (hE : goodElem E) (f : Nat) (buf : GoStr)
    (dd : Nat) (t : GoStr) :
    cleanLoop false (f + 1) buf dd (E ++ '/' :: t)
      = cleanLoop false f (buf ++ (if buf.length = 0 then [] else ['/']) ++ E) dd ('/' :: t) := by
  obtain ⟨hne, hns, hd1, hd2⟩ := hE
  rcases E with _ | ⟨c, r⟩
  · exact absurd rfl hne
  have hcs : c ≠ '/' := fun h => hns (h ▸ List.mem_cons_self c r)
  have hrs : '/' ∉ r := fun h => hns (List.mem_cons_of_mem c h)
  have htake : ((c :: r) ++ '/' :: t).takeWhile (fun x => !(x == '/')) = c :: r := by
    rw [List.takeWhile_append]
    rw [takeWhile_all_eq _ _ (noSlash_pred _ hns)]
    simp
  have hdrop : (r ++ '/' :: t).dropWhile (fun x => !(x == '/')) = '/' :: t := by
    rw [List.dropWhile_append]
    rw [dropWhile_all_eq _ _ (noSlash_pred _ hrs)]
    simp [List.dropWhile]
  by_cases hc : c = '.'
  · subst hc
    rcases r with _ | ⟨c2, r2⟩
    · exact absurd rfl hd1
    have hc2s : c2 ≠ '/' := fun h => hrs (h ▸ List.mem_cons_self c2 r2)
    by_cases hc2 : c2 = '.'
    · subst hc2
      have hr2ne : r2 ≠ [] := fun h => hd2 (by rw [h])
      have hr2s : '/' ∉ r2 := fun h => hrs (List.mem_cons_of_mem _ h)
      show cleanLoop false (f + 1) buf dd ('.' :: '.' :: (r2 ++ '/' :: t)) = _
      rw [cleanLoop]
      rw [if_neg (by
        rintro (h | h)
        · rcases r2 with _ | ⟨c3, r3⟩
          · exact hr2ne rfl
          · simp at h
        · rcases r2 with _ | ⟨c3, r3⟩
          · exact hr2ne rfl
          · simp only [List.cons_append, List.head?_cons, Option.some.injEq] at h
            exact hr2s (h ▸ List.mem_cons_self c3 r3))]
      have htake' : (('.' :: '.' :: (r2 ++ '/' :: t))).takeWhile (fun x => !(x == '/'))
          = '.' :: '.' :: r2 := by
        have := htake
        simpa using this
      have hdrop' : (r2 ++ '/' :: t).dropWhile (fun x => !(x == '/')) = '/' :: t := by
        rw [List.dropWhile_append]
        rw [dropWhile_all_eq _ _ (noSlash_pred _ hr2s)]
        simp [List.dropWhile]
      rw [htake', hdrop', sep_norm]
    · show cleanLoop false (f + 1) buf dd ('.' :: c2 :: (r2 ++ '/' :: t)) = _
      rw [cleanLoop]
      · rw [show ('.' :: c2 :: (r2 ++ '/' :: t)) = (('.' :: c2 :: r2) ++ '/' :: t) by simp] at *
        rw [htake]
        have : (c2 :: (r2 ++ '/' :: t)).dropWhile (fun x => !(x == '/')) = '/' :: t := by
          have := hdrop
          simpa using this
        rw [this, sep_norm]
      all_goals intros
      all_goals simp_all
  · show cleanLoop false (f + 1) buf dd (c :: (r ++ '/' :: t)) = _
    rw [cleanLoop]
    · rw [show (c :: (r ++ '/' :: t)) = ((c :: r) ++ '/' :: t) by simp] at *
      rw [htake, hdrop, sep_norm]
    all_goals intros
    all_goals simp_all

theorem cleanLoop_good_dir (d : GoStr) (hd : DirGood d) (E : GoStr) (hE : goodElem E) :
    d ≠ [] → ∀ fuel buf dd, d.length + 1 + E.length ≤ fuel →
    cleanLoop false fuel buf dd (d ++ '/' :: E)
      = buf ++ (if buf.length = 0 then [] else ['/']) ++ (d ++ E) := by
  induction hd with
  | nil => intro h; exact absurd rfl h
  | cons e d2 he hd2 ih =>
    intro _ fuel buf dd hfuel
    have hene : e ≠ [] := he.1
    have helen : 1 ≤ e.length := List.length_pos.mpr hene
    have hrear : (e ++ '/' :: d2) ++ '/' :: E = e ++ '/' :: (d2 ++ '/' :: E) := by simp
    rw [hrear]
    rcases fuel with _ | f
    · exfalso; simp [List.length_append] at hfuel
    rw [cleanLoop_good_elem_slash e he f buf dd (d2 ++ '/' :: E)]
    rcases f with _ | f2
    · exfalso; simp [List.length_append] at hfuel; omega
    rw [cleanLoop_slash]
    by_cases hd2e : d2 = []
    · subst hd2e
      simp only [List.nil_append]
      rcases f2 with _ | f3
      · exfalso
        simp only [List.length_append, List.length_cons, List.length_nil] at hfuel
        omega
      rw [cleanLoop_slash]
      rw [cleanLoop_good_elem E hE f3 _ dd (by
        simp only [List.length_append, List.length_cons, List.length_nil] at hfuel ⊢
        omega)]
      have hbne : ¬(((buf ++ (if List.length buf = 0 then [] else ['/'])) ++ e).length = 0) := by
        simp only [List.length_append]
        omega
      rw [if_neg hbne]
      simp
    · rw [ih hd2e f2 _ dd (by
        have hd2len : 1 ≤ d2.length := List.length_pos.mpr hd2e
        simp only [List.length_append, List.length_cons, List.length_nil] at hfuel ⊢
        omega)]
      have hbne : ¬(((buf ++ (if List.length buf = 0 then [] else ['/'])) ++ e).length = 0) := by
        simp only [List.length_append]
        omega
      rw [if_neg hbne]
      simp

theorem dirGood_head (d : GoStr) (hd : DirGood d) (hne : d ≠ []) :
    ∃ c r, d = c :: r ∧ c ≠ '/' := by
  cases hd with
  | nil => exact absurd rfl hne
  | cons e d2 he hd2 =>
    rcases e with _ | ⟨c, e2⟩
    · exact absurd rfl he.1
    · exact ⟨c, e2 ++ '/' :: d2, by simp,
        fun h => he.2.1 (h ▸ List.mem_cons_self c e2)⟩

theorem pathClean_good_elem (E : GoStr) (hE : goodElem E) : pathClean E = E := by
  have hne := hE.1
  have hhead : ¬(E.head? = some '/') := by
    rcases E with _ | ⟨c, r⟩
    · exact absurd rfl hne
    · simp only [List.head?_cons, Option.some.injEq]
      exact fun h => hE.2.1 (h ▸ List.mem_cons_self c r)
  unfold pathClean
  rw [if_neg hne]
  dsimp only
  rw [if_neg hhead]
  rw [cleanLoop_good_elem E hE E.length [] 0 (le_refl _)]
  simp [hne]

theorem pathClean_good_dir (d : GoStr) (hd : DirGood d) (hdne : d ≠ []) (E : GoStr)
    (hE : goodElem E) : pathClean (d ++ '/' :: E) = d ++ E := by
  obtain ⟨c, r, hdc, hcs⟩ := dirGood_head d hd hdne
  have hne : d ++ '/' :: E ≠ [] := by simp [hdc]
  have hhead : ¬((d ++ '/' :: E).head? = some '/') := by
    rw [hdc]
    simp only [List.cons_append, List.head?_cons, Option.some.injEq]
    exact fun h => hcs h
  unfold pathClean
  rw [if_neg hne]
  dsimp only
  rw [if_neg hhead]
  rw [cleanLoop_good_dir d hd E hE hdne _ [] 0 (by
    simp only [List.length_append, List.length_cons]
    omega)]
  have : ([] : GoStr) ++ (if ([] : GoStr).length = 0 then [] else ['/']) ++ (d ++ E) = d ++ E := by
    simp
  rw [this]
  rw [if_neg (by simp [hE.1])]

theorem pathJoin2_good (d : GoStr) (hd : DirGood d) (E : GoStr) (hE : goodElem E) :
    pathJoin2 d E = d ++ E := by
  unfold pathJoin2
  by_cases hdn : d = []
  · rw [if_pos hdn, if_neg hE.1, pathClean_good_elem E hE, hdn]
    simp
  · rw [if_neg hdn, if_neg hE.1, pathClean_good_dir d hd hdn E hE]

theorem pathSplit_append (p : GoStr) : (pathSplit p).1 ++ (pathSplit p).2 = p := by
  induction p with
  | nil => rfl
  | cons c rest ih =>
    unfold pathSplit
    by_cases hr : '/' ∈ rest
    · rw [if_pos hr]
      simp only [List.cons_append]
      rw [ih]
    · rw [if_neg hr]
      by_cases hc : c = '/' <;> simp [hc]

theorem pathSplit_base_no_slash (p : GoStr) : '/' ∉ (pathSplit p).2 := by
  induction p with
  | nil => simp [pathSplit]
  | cons c rest ih =>
    unfold pathSplit
    by_cases hr : '/' ∈ rest
    · rw [if_pos hr]
      exact ih
    · rw [if_neg hr]
      by_cases hc : c = '/'
      · simp [hc, hr]
      · simp only [if_neg hc]
        intro hmem
        rcases List.mem_cons.mp hmem with h | h
        · exact hc h.symm
        · exact hr h

theorem pathSplit_no_slash (p : GoStr) (h : '/' ∉ p) : pathSplit p = ([], p) := by
  cases p with
  | nil => rfl
  | cons c rest =>
    unfold pathSplit
    have hr : '/' ∉ rest := fun hm => h (List.mem_cons_of_mem c hm)
    have hc : c ≠ '/' := fun hc => h (hc ▸ List.mem_cons_self c rest)
    rw [if_neg hr, if_neg (fun hcc => hc hcc)]

theorem pathSplit_elem_more (e rest : GoStr) (he : '/' ∉ e) (hr : '/' ∈ rest) :
    pathSplit (e ++ '/' :: rest) = (e ++ '/' :: (pathSplit rest).1, (pathSplit rest).2) := by
  induction e with
  | nil =>
    simp only [List.nil_append]
    rw [pathSplit]
    rw [if_pos hr]
  | cons c e2 ih =>
    have he2 : '/' ∉ e2 := fun hm => he (List.mem_cons_of_mem c hm)
    simp only [List.cons_append]
    rw [pathSplit]
    rw [if_pos (by
      apply List.mem_append.mpr
      right
      exact List.mem_cons_self '/' rest)]
    rw [ih he2]

theorem pathSplit_elem_last (e rest : GoStr) (he : '/' ∉ e) (hr : '/' ∉ rest) :
    pathSplit (e ++ '/' :: rest) = (e ++ ['/'], rest) := by
  induction e with
  | nil =>
    simp only [List.nil_append]
    unfold pathSplit
    rw [if_neg hr, if_pos rfl]
  | cons c e2 ih =>
    have hc : c ≠ '/' := fun hc => he (hc ▸ List.mem_cons_self c e2)
    have he2 : '/' ∉ e2 := fun hm => he (List.mem_cons_of_mem c hm)
    simp only [List.cons_append]
    unfold pathSplit
    rw [if_pos (by
      apply List.mem_append.mpr
      right
      exact List.mem_cons_self '/' rest)]
    rw [ih he2]

theorem splitSlash_no_slash (p : GoStr) (h : '/' ∉ p) : splitSlash p = [p] := by
  induction p with
  | nil => rfl
  | cons c rest ih =>
    have hc : c ≠ '/' := fun hc => h (hc ▸ List.mem_cons_self c rest)
    have hr : '/' ∉ rest := fun hm => h (List.mem_cons_of_mem c hm)
    unfold splitSlash
    rw [if_neg hc, ih hr]

theorem splitSlash_elem (e rest : GoStr) (he : '/' ∉ e) :
    splitSlash (e ++ '/' :: rest) = e :: splitSlash rest := by
  induction e with
  | nil =>
    simp only [List.nil_append]
    rw [splitSlash]
    rw [if_pos rfl]
  | cons c e2 ih =>
    have hc : c ≠ '/' := fun hc => he (hc ▸ List.mem_cons_self c e2)
    have he2 : '/' ∉ e2 := fun hm => he (List.mem_cons_of_mem c hm)
    simp only [List.cons_append]
    rw [splitSlash]
    rw [if_neg hc, ih he2]

theorem first_slash_decompose (p : GoStr) (h : '/' ∈ p) :
    ∃ e rest, p = e ++ '/' :: rest ∧ '/' ∉ e := by
  induction p with
  | nil => simp at h
  | cons c t ih =>
    by_cases hc : c = '/'
    · exact ⟨[], t, by simp [hc], by simp⟩
    · have ht : '/' ∈ t := by
        rcases List.mem_cons.mp h with h1 | h1
        · exact absurd h1.symm hc
        · exact h1
      obtain ⟨e, rest, hdec, hne⟩ := ih ht
      exact ⟨c :: e, rest, by rw [hdec]; rfl, by
        intro hm
        rcases List.mem_cons.mp hm with h1 | h1
        · exact hc h1.symm
        · exact hne h1⟩

theorem valid_structure : ∀ n (p : GoStr), p.length ≤ n → fsValidPath p = true →
    p = ['.'] ∨ (DirGood (pathSplit p).1 ∧ goodElem (pathSplit p).2) := by
  intro n
  induction n with
  | zero =>
    intro p hlen hv
    have hp : p = [] := List.length_eq_zero.mp (Nat.le_zero.mp hlen)
    subst hp
    simp [fsValidPath] at hv
  | succ n ih =>
    intro p hlen hv
    by_cases hdot : p = ['.']
    · left; exact hdot
    right
    have hextract : (splitSlash p).all validElem = true ∧ p ≠ [] := by
      simp only [fsValidPath, Bool.or_eq_true, decide_eq_true_eq, Bool.and_eq_true] at hv
      rcases hv with h | h
      · exact absurd h hdot
      · exact ⟨h.2, h.1⟩
    obtain ⟨hall, hpne⟩ := hextract
    by_cases hsl : '/' ∈ p
    · obtain ⟨e, rest, hdec, hens⟩ := first_slash_decompose p hsl
      subst hdec
      rw [splitSlash_elem e rest hens] at hall
      simp only [List.all_cons, Bool.and_eq_true] at hall
      obtain ⟨hve, hvrest⟩ := hall
      have hge : goodElem e := by
        simp only [validElem, decide_eq_true_eq] at hve
        exact ⟨hve.1, hens, hve.2.1, hve.2.2⟩
      have hrne : rest ≠ [] := by
        intro h
        subst h
        rw [splitSlash_no_slash [] (by simp)] at hvrest
        simp [validElem] at hvrest
      have hvrest' : fsValidPath rest = true := by
        simp only [fsValidPath, Bool.or_eq_true, decide_eq_true_eq, Bool.and_eq_true]
        right
        exact ⟨hrne, hvrest⟩
      have hrlen : rest.length ≤ n := by
        simp only [List.length_append, List.length_cons] at hlen
        omega
      have hres := ih rest hrlen hvrest'
      rcases hres with hres | ⟨hdg, hgb⟩
      · subst hres
        rw [splitSlash_no_slash ['.'] (by simp)] at hvrest
        simp [validElem] at hvrest
      · by_cases hslr : '/' ∈ rest
        · rw [pathSplit_elem_more e rest hens hslr]
          exact ⟨DirGood.cons e _ hge hdg, hgb⟩
        · rw [pathSplit_elem_last e rest hens hslr]
          have hps : pathSplit rest = ([], rest) := pathSplit_no_slash rest hslr
          rw [hps] at hgb
          refine ⟨?_, hgb⟩
          have hre : e ++ ['/'] = e ++ '/' :: ([] : GoStr) := rfl
          rw [hre]
          exact DirGood.cons e [] hge DirGood.nil
    · rw [splitSlash_no_slash p hsl] at hall
      simp only [List.all_cons, List.all_nil, Bool.and_true] at hall
      simp only [validElem, decide_eq_true_eq] at hall
      rw [pathSplit_no_slash p hsl]
      exact ⟨DirGood.nil, hall.1, hsl, hall.2.1, hall.2.2⟩

theorem valid_dirGood (p : GoStr) (hv : fsValidPath p = true) : DirGood (pathSplit p).1 := by
  rcases valid_structure p.length p (le_refl _) hv with h | ⟨h, _⟩
  · subst h
    rw [pathSplit_no_slash ['.'] (by simp)]
    exact DirGood.nil
  · exact h

theorem valid_base_ne_nil (p : GoStr) (hv : fsValidPath p = true) : (pathSplit p).2 ≠ [] := by
  rcases valid_structure p.length p (le_refl _) hv with h | ⟨_, h⟩
  · subst h
    rw [pathSplit_no_slash ['.'] (by simp)]
    simp
  · exact h.1

theorem hexEncode_length (bs : List Nat) : (hexEncode bs).length = 2 * bs.length := by
  induction bs with
  | nil => rfl
  | cons b t ih =>
    simp only [hexEncode, List.length_cons, ih]
    omega

theorem hexDigit_mem (n : Nat) : hexDigit n ∈ gs "0123456789abcdef" := by
  unfold hexDigit
  by_cases h : n < (gs "0123456789abcdef").length
  · rw [List.getD_eq_getElem _ _ h]
    exact List.getElem_mem h
  · rw [List.getD_eq_default _ _ (le_of_not_lt h)]
    decide

theorem hexEncode_mem (bs : List Nat) : ∀ ch ∈ hexEncode bs, ch ∈ gs "0123456789abcdef" := by
  induction bs with
  | nil => intro ch h; simp [hexEncode] at h
  | cons b t ih =>
    intro ch h
    simp only [hexEncode, List.mem_cons] at h
    rcases h with h | h | h
    · exact h ▸ hexDigit_mem _
    · exact h ▸ hexDigit_mem _
    · exact ih ch h

theorem hashHex_hexEncode (x : List Nat) (hx : x.length = 32) : HashHex (hexEncode x) := by
  refine ⟨by rw [hexEncode_length, hx], ?_, ?_⟩
  · intro h
    have := hexEncode_mem x '/' h
    simp [gs] at this
  · intro h
    have := hexEncode_mem x '.' h
    simp [gs] at this

theorem pathExt_subset (p : GoStr) : pathExt p ⊆ p := by
  unfold pathExt
  cases h : p.reverse.findIdx? (fun c => c == '.' || c == '/') with
  | none => simp
  | some i =>
    dsimp only
    split
    · exact List.drop_subset _ p
    · simp

theorem splice_start (b h : GoStr) : splice 0 b h = h ++ '.' :: b := by
  simp [splice, hashLocationStart, hashLocationFirstPeriod]

theorem splice_firstPeriod (b h : GoStr) :
    splice 1 b h
      = (match stringsIndexDot b with
         | some i => b.take i ++ '-' :: h ++ b.drop i
         | none => b ++ '-' :: h) := by
  simp [splice, hashLocationFirstPeriod]

theorem splice_end (b h : GoStr) :
    splice 2 b h = b ++ '.' :: h ++ pathExt b := by
  simp [splice, hashLocationEnd, hashLocationFirstPeriod, hashLocationStart]

theorem splice_length_ge (b h : GoStr) (hl : Nat) (hlen : h.length = 64) (hhl : hl < 3) :
    65 ≤ (splice hl b h).length := by
  interval_cases hl
  · rw [splice_start]
    simp only [List.length_append, List.length_cons, hlen]
    omega
  · rw [splice_firstPeriod]
    cases hix : stringsIndexDot b with
    | none =>
      simp only [List.length_append, List.length_cons, hlen]
      omega
    | some i =>
      simp only [List.length_append, List.length_cons, List.length_take, List.length_drop, hlen]
      omega
  · rw [splice_end]
    simp only [List.length_append, List.length_cons, hlen]
    omega

theorem splice_no_slash (b h : GoStr) (hl : Nat) (hb : '/' ∉ b) (hh : HashHex h)
    (hhl : hl < 3) : '/' ∉ splice hl b h := by
  obtain ⟨hlen, hsl, hdot⟩ := hh
  have hdash : ('/' : Char) ≠ '-' := by decide
  have hdp : ('/' : Char) ≠ '.' := by decide
  interval_cases hl
  · rw [splice_start]
    intro hm
    simp only [List.mem_append, List.mem_cons] at hm
    simp [hsl, hb, hdp] at hm
  · rw [splice_firstPeriod]
    rcases hix : stringsIndexDot b with _ | i
    · dsimp only
      intro hm
      have h1 : '/' ∉ b ++ '-' :: h := by
        intro hq
        simp only [List.mem_append, List.mem_cons] at hq
        simp [hsl, hb, hdash] at hq
      exact h1 hm
    · dsimp only
      intro hm
      have ht : '/' ∉ List.take i b := fun q => hb (List.take_subset i b q)
      have hd : '/' ∉ List.drop i b := fun q => hb (List.drop_subset i b q)
      simp only [List.mem_append, List.mem_cons] at hm
      simp [hsl, ht, hd, hdash] at hm
  · rw [splice_end]
    intro hm
    have he : '/' ∉ pathExt b := fun q => hb (pathExt_subset b q)
    simp only [List.mem_append, List.mem_cons] at hm
    simp [hsl, hb, he, hdp] at hm

theorem splice_good (b h : GoStr) (hl : Nat) (hb : '/' ∉ b) (hh : HashHex h) (hhl : hl < 3) :
    goodElem (splice hl b h) := by
  have h65 : 65 ≤ (splice hl b h).length := splice_length_ge b h hl hh.1 hhl
  refine ⟨?_, splice_no_slash b h hl hb hh hhl, ?_, ?_⟩
  · intro h0
    rw [h0] at h65
    simp at h65
  · intro h0
    rw [h0] at h65
    simp at h65
  · intro h0
    rw [h0] at h65
    simp at h65

theorem formatName_normal (p h : GoStr) (hl : Nat) (hval : fsValidPath p = true)
    (hh : HashHex h) (hhl : hl < 3) :
    FormatName p h hl = (pathSplit p).1 ++ splice hl (pathSplit p).2 h := by
  have hp : p ≠ [] := fsValidPath_ne_nil p hval
  have hhne : h ≠ [] := by
    intro h0
    rw [h0] at hh
    simp [HashHex] at hh
  have hbs : '/' ∉ (pathSplit p).2 := pathSplit_base_no_slash p
  have hdg : DirGood (pathSplit p).1 := valid_dirGood p hval
  have hsg : goodElem (splice hl (pathSplit p).2 h) :=
    splice_good _ _ _ hbs hh hhl
  unfold FormatName
  rw [if_neg hp, if_neg hhne]
  interval_cases hl
  · simp only [hashLocationFirstPeriod, hashLocationStart, hashLocationEnd]
    norm_num
    rw [splice_start] at hsg ⊢
    exact pathJoin2_good _ hdg _ hsg
  · simp only [hashLocationFirstPeriod, hashLocationStart, hashLocationEnd]
    norm_num
    rw [splice_firstPeriod] at hsg ⊢
    rcases hix : stringsIndexDot (pathSplit p).2 with _ | i
    · rw [hix] at hsg
      dsimp only at hsg ⊢
      exact pathJoin2_good _ hdg _ hsg
    · rw [hix] at hsg
      dsimp only at hsg ⊢
      simpa using pathJoin2_good _ hdg _ hsg
  · simp only [hashLocationFirstPeriod, hashLocationStart, hashLocationEnd]
    norm_num
    rw [splice_end] at hsg ⊢
    simpa using pathJoin2_good _ hdg _ hsg

theorem marker_split (m : Char) (a1 a2 t1 t2 : GoStr) (h1 : m ∉ a1) (h2 : m ∉ a2)
    (heq : a1 ++ m :: t1 = a2 ++ m :: t2) : a1 = a2 ∧ t1 = t2 := by
  rcases List.append_eq_append_iff.mp heq with ⟨k, hk1, hk2⟩ | ⟨k, hk1, hk2⟩
  · rcases k with _ | ⟨x, k2⟩
    · simp only [List.append_nil] at hk1
      simp only [List.nil_append, List.cons.injEq] at hk2
      exact ⟨hk1.symm, hk2.2⟩
    · simp only [List.cons_append, List.cons.injEq] at hk2
      exfalso
      apply h2
      rw [hk1]
      exact List.mem_append.mpr (Or.inr (hk2.1 ▸ List.mem_cons_self x k2))
  · rcases k with _ | ⟨x, k2⟩
    · simp only [List.append_nil] at hk1
      simp only [List.nil_append, List.cons.injEq] at hk2
      exact ⟨hk1, hk2.2.symm⟩
    · simp only [List.cons_append, List.cons.injEq] at hk2
      exfalso
      apply h1
      rw [hk1]
      exact List.mem_append.mpr (Or.inr (hk2.1 ▸ List.mem_cons_self x k2))

theorem dirGood_last (d : GoStr) (hd : DirGood d) : d = [] ∨ ∃ d', d = d' ++ ['/'] := by
  induction hd with
  | nil => left; rfl
  | cons e d2 he hd2 ih =>
    right
    rcases ih with h | ⟨d2', h⟩
    · exact ⟨e, by rw [h]⟩
    · exact ⟨e ++ '/' :: d2', by rw [h]; simp⟩

theorem dir_slash_split (d1 d2 E1 E2 : GoStr) (hd1 : DirGood d1) (hd2 : DirGood d2)
    (hE1s : '/' ∉ E1) (hE2s : '/' ∉ E2)
    (heq : d1 ++ E1 = d2 ++ E2) : d1 = d2 ∧ E1 = E2 := by
  rcases dirGood_last d1 hd1 with hn1 | ⟨a1, ha1⟩
  · rcases dirGood_last d2 hd2 with hn2 | ⟨a2, ha2⟩
    · subst hn1; subst hn2
      simpa using heq
    · subst hn1
      exfalso
      apply hE1s
      simp only [List.nil_append] at heq
      rw [heq, ha2]
      exact List.mem_append.mpr (Or.inl (List.mem_append.mpr (Or.inr (by simp))))
  · rcases dirGood_last d2 hd2 with hn2 | ⟨a2, ha2⟩
    · subst hn2
      exfalso
      apply hE2s
      simp only [List.nil_append] at heq
      rw [← heq, ha1]
      exact List.mem_append.mpr (Or.inl (List.mem_append.mpr (Or.inr (by simp))))
    · rw [ha1, ha2] at heq
      have hrev : E1.reverse ++ '/' :: a1.reverse = E2.reverse ++ '/' :: a2.reverse := by
        have := congrArg List.reverse heq
        simpa [List.reverse_append] using this
      have hr := marker_split '/' _ _ _ _
        (fun hm => hE1s (List.mem_reverse.mp hm))
        (fun hm => hE2s (List.mem_reverse.mp hm)) hrev
      have hE : E1 = E2 := by
        have := congrArg List.reverse hr.1
        simpa using this
      have ha : a1 = a2 := by
        have := congrArg List.reverse hr.2
        simpa using this
      exact ⟨by rw [ha1, ha2, ha], hE⟩

theorem findIdx?_none_all (p : Char → Bool) (l : GoStr) (h : l.findIdx? p = none) :
    ∀ y ∈ l, p y = false := by
  induction l with
  | nil => intro y hy; simp at hy
  | cons c t ih =>
    rw [List.findIdx?_cons] at h
    by_cases hc : p c = true
    · rw [hc] at h; simp at h
    · intro y hy
      rcases List.mem_cons.mp hy with hy | hy
      · subst hy
        exact Bool.eq_false_iff.mpr hc
      · apply ih _ y hy
        rw [Bool.eq_false_iff.mpr hc] at h
        simpa using h

theorem findIdx?_split (p : Char → Bool) : ∀ (l : GoStr) (i : Nat), l.findIdx? p = some i →
    ∃ a x b2, l = a ++ x :: b2 ∧ a.length = i ∧ p x = true ∧ ∀ y ∈ a, p y = false := by
  intro l
  induction l with
  | nil => intro i h; simp at h
  | cons c t ih =>
    intro i h
    rw [List.findIdx?_cons] at h
    by_cases hc : p c = true
    · rw [hc] at h
      simp only [if_pos rfl] at h
      refine ⟨[], c, t, by simp, ?_, hc, by simp⟩
      simp only [List.length_nil]
      exact Option.some.inj h
    · rw [Bool.eq_false_iff.mpr hc] at h
      simp only [Bool.false_eq_true, if_neg (by simp : ¬False)] at h
      rw [List.findIdx?_succ] at h
      rcases hoj : t.findIdx? p with _ | j
      · rw [hoj] at h; simp at h
      · rw [hoj] at h
        simp only [Option.map_some'] at h
        obtain ⟨a, x, b2, hdec, hlen, hpx, hall⟩ := ih j hoj
        have hji : j + 1 = i := Option.some.inj h
        refine ⟨c :: a, x, b2, by rw [hdec]; rfl, ?_, hpx, ?_⟩
        · simp only [List.length_cons, hlen]
          omega
        · intro y hy
          rcases List.mem_cons.mp hy with hy | hy
          · subst hy; exact Bool.eq_false_iff.mpr hc
          · exact hall y hy

theorem indexDot_none (b : GoStr) (h : stringsIndexDot b = none) : '.' ∉ b := by
  intro hm
  have := findIdx?_none_all _ b h '.' hm
  simp at this

theorem indexDot_some (b : GoStr) (i : Nat) (h : stringsIndexDot b = some i) :
    ∃ a r, b = a ++ '.' :: r ∧ a.length = i ∧ '.' ∉ a := by
  obtain ⟨a, x, r, hdec, hlen, hpx, hall⟩ := findIdx?_split _ b i h
  have hx : x = '.' := by simpa using hpx
  subst hx
  refine ⟨a, r, hdec, hlen, fun hm => ?_⟩
  have := hall '.' hm
  simp at this

theorem take_len_append {α : Type} (a b : List α) : (a ++ b).take a.length = a := by
  simp

theorem drop_len_append {α : Type} (a b : List α) : (a ++ b).drop a.length = b := by
  simp

theorem getD_append_length {α : Type} (a : List α) (x : α) (r : List α) (d : α) :
    (a ++ x :: r).getD a.length d = x := by
  induction a with
  | nil => rfl
  | cons c t ih => simpa using ih

theorem pathExt_structure (b : GoStr) (hb : '/' ∉ b) :
    ('.' ∉ b ∧ pathExt b = []) ∨
    (∃ u e, b = u ++ '.' :: e ∧ '.' ∉ e ∧ pathExt b = '.' :: e) := by
  unfold pathExt
  cases hfi : b.reverse.findIdx? (fun c => c == '.' || c == '/') with
  | none =>
    left
    refine ⟨fun hm => ?_, rfl⟩
    have := findIdx?_none_all _ _ hfi '.' (List.mem_reverse.mpr hm)
    simp at this
  | some i =>
    right
    obtain ⟨a, x, r, hdec, hlen, hpx, hall⟩ := findIdx?_split _ _ i hfi
    have hx : x = '.' := by
      rcases (by simpa using hpx : x = '.' ∨ x = '/') with h | h
      · exact h
      · exfalso
        apply hb
        rw [← List.mem_reverse, hdec, h]
        simp
    subst hx
    have hgetD : b.reverse.getD i ' ' = '.' := by
      rw [hdec, ← hlen]
      exact getD_append_length a '.' r ' '
    dsimp only
    rw [if_pos hgetD]
    refine ⟨r.reverse, a.reverse, ?_, ?_, ?_⟩
    · have := congrArg List.reverse hdec
      simpa using this
    · intro hm
      have := hall '.' (List.mem_reverse.mp hm)
      simp at this
    · have hblen : b.length = a.length + 1 + r.length := by
        have := congrArg List.length hdec
        simp at this
        omega
      have hdropn : b.length - 1 - i = r.reverse.length := by
        simp only [List.length_reverse]
        omega
      rw [hdropn]
      have hbdec : b = r.reverse ++ '.' :: a.reverse := by
        have := congrArg List.reverse hdec
        simpa using this
      rw [hbdec, drop_len_append]

theorem splice_inj_start (b1 b2 h1 h2 : GoStr) (hl1 : h1.length = 64) (hl2 : h2.length = 64)
    (heq : splice 0 b1 h1 = splice 0 b2 h2) : b1 = b2 ∧ h1 = h2 := by
  rw [splice_start, splice_start] at heq
  obtain ⟨hh, hb⟩ := List.append_inj heq (by rw [hl1, hl2])
  exact ⟨by simpa using hb, hh⟩

theorem splice_inj_fp (b1 b2 h1 h2 : GoStr) (hh1 : HashHex h1) (hh2 : HashHex h2)
    (heq : splice 1 b1 h1 = splice 1 b2 h2) : b1 = b2 ∧ h1 = h2 := by
  rw [splice_firstPeriod, splice_firstPeriod] at heq
  rcases hix1 : stringsIndexDot b1 with _ | i1 <;> rcases hix2 : stringsIndexDot b2 with _ | i2 <;>
    rw [hix1, hix2] at heq <;> dsimp only at heq
  · obtain ⟨hb, hh⟩ := List.append_inj' heq (by simp [hh1.1, hh2.1])
    exact ⟨hb, by simpa using hh⟩
  · exfalso
    obtain ⟨a2, r2, hb2d, ha2len, ha2dot⟩ := indexDot_some b2 i2 hix2
    rw [hb2d, ← ha2len, take_len_append, drop_len_append] at heq
    have hmem : ('.' : Char) ∈ b1 ++ '-' :: h1 := by rw [heq]; simp
    have hb1dot := indexDot_none b1 hix1
    simp only [List.mem_append, List.mem_cons] at hmem
    rcases hmem with h | h | h
    · exact hb1dot h
    · simp at h
    · exact hh1.2.2 h
  · exfalso
    obtain ⟨a1, r1, hb1d, ha1len, ha1dot⟩ := indexDot_some b1 i1 hix1
    rw [hb1d, ← ha1len, take_len_append, drop_len_append] at heq
    have hmem : ('.' : Char) ∈ b2 ++ '-' :: h2 := by rw [← heq]; simp
    have hb2dot := indexDot_none b2 hix2
    simp only [List.mem_append, List.mem_cons] at hmem
    rcases hmem with h | h | h
    · exact hb2dot h
    · simp at h
    · exact hh2.2.2 h
  · obtain ⟨a1, r1, hb1d, ha1len, ha1dot⟩ := indexDot_some b1 i1 hix1
    obtain ⟨a2, r2, hb2d, ha2len, ha2dot⟩ := indexDot_some b2 i2 hix2
    rw [hb1d, ← ha1len, take_len_append, drop_len_append] at heq
    rw [hb2d, ← ha2len, take_len_append, drop_len_append] at heq
    have hnd1 : ('.' : Char) ∉ a1 ++ '-' :: h1 := by
      intro hm
      simp only [List.mem_append, List.mem_cons] at hm
      rcases hm with h | h | h
      · exact ha1dot h
      · simp at h
      · exact hh1.2.2 h
    have hnd2 : ('.' : Char) ∉ a2 ++ '-' :: h2 := by
      intro hm
      simp only [List.mem_append, List.mem_cons] at hm
      rcases hm with h | h | h
      · exact ha2dot h
      · simp at h
      · exact hh2.2.2 h
    have hs := marker_split '.' _ _ _ _ hnd1 hnd2 heq
    obtain ⟨ha, hh⟩ := List.append_inj' hs.1 (by simp [hh1.1, hh2.1])
    refine ⟨?_, by simpa using hh⟩
    rw [hb1d, hb2d, ha, hs.2]

theorem splice_inj_end (b1 b2 h1 h2 : GoStr) (hb1 : '/' ∉ b1) (hb2 : '/' ∉ b2)
    (hh1 : HashHex h1) (hh2 : HashHex h2)
    (heq : splice 2 b1 h1 = splice 2 b2 h2) : b1 = b2 ∧ h1 = h2 := by
  rw [splice_end, splice_end] at heq
  rcases pathExt_structure b1 hb1 with ⟨hd1, he1⟩ | ⟨u1, e1, hb1d, he1d, hx1⟩ <;>
    rcases pathExt_structure b2 hb2 with ⟨hd2, he2⟩ | ⟨u2, e2, hb2d, he2d, hx2⟩
  · rw [he1, he2] at heq
    simp only [List.append_nil] at heq
    exact marker_split '.' _ _ _ _ hd1 hd2 heq
  · exfalso
    rw [he1, hx2] at heq
    have hrev : List.reverse h1 ++ '.' :: List.reverse b1
        = List.reverse e2 ++ '.' :: (List.reverse h2 ++ '.' :: List.reverse b2) := by
      simpa using congrArg List.reverse heq
    have hs := marker_split '.' _ _ _ _
      (fun hm => hh1.2.2 (List.mem_reverse.mp hm))
      (fun hm => he2d (List.mem_reverse.mp hm)) hrev
    apply hd1
    rw [← List.mem_reverse, hs.2]
    simp
  · exfalso
    rw [hx1, he2] at heq
    have hrev : List.reverse e1 ++ '.' :: (List.reverse h1 ++ '.' :: List.reverse b1)
        = List.reverse h2 ++ '.' :: List.reverse b2 := by
      simpa using congrArg List.reverse heq
    have hs := marker_split '.' _ _ _ _
      (fun hm => he1d (List.mem_reverse.mp hm))
      (fun hm => hh2.2.2 (List.mem_reverse.mp hm)) hrev
    apply hd2
    rw [← List.mem_reverse, ← hs.2]
    simp
  · rw [hx1, hx2] at heq
    have hrev : List.reverse e1 ++ '.' :: (List.reverse h1 ++ '.' :: List.reverse b1)
        = List.reverse e2 ++ '.' :: (List.reverse h2 ++ '.' :: List.reverse b2) := by
      simpa using congrArg List.reverse heq
    have hs1 := marker_split '.' _ _ _ _
      (fun hm => he1d (List.mem_reverse.mp hm))
      (fun hm => he2d (List.mem_reverse.mp hm)) hrev
    have hs2 := marker_split '.' _ _ _ _
      (fun hm => hh1.2.2 (List.mem_reverse.mp hm))
      (fun hm => hh2.2.2 (List.mem_reverse.mp hm)) hs1.2
    constructor
    · have := congrArg List.reverse hs2.2
      simpa using this
    · have := congrArg List.reverse hs2.1
      simpa using this

theorem splice_inj (hl : Nat) (b1 b2 h1 h2 : GoStr) (hb1 : '/' ∉ b1) (hb2 : '/' ∉ b2)
    (hh1 : HashHex h1) (hh2 : HashHex h2) (hhl : hl < 3)
    (heq : splice hl b1 h1 = splice hl b2 h2) : b1 = b2 ∧ h1 = h2 := by
  interval_cases hl
  · exact splice_inj_start b1 b2 h1 h2 hh1.1 hh2.1 heq
  · exact splice_inj_fp b1 b2 h1 h2 hh1 hh2 heq
  · exact splice_inj_end b1 b2 h1 h2 hb1 hb2 hh1 hh2 heq

theorem formatName_inj (p1 p2 h1 h2 : GoStr) (hl : Nat)
    (hv1 : fsValidPath p1 = true) (hv2 : fsValidPath p2 = true)
    (hh1 : HashHex h1) (hh2 : HashHex h2) (hhl : hl < 3)
    (heq : FormatName p1 h1 hl = FormatName p2 h2 hl) : p1 = p2 ∧ h1 = h2 := by
  rw [formatName_normal p1 h1 hl hv1 hh1 hhl, formatName_normal p2 h2 hl hv2 hh2 hhl] at heq
  have hsg1 := splice_good (pathSplit p1).2 h1 hl (pathSplit_base_no_slash p1) hh1 hhl
  have hsg2 := splice_good (pathSplit p2).2 h2 hl (pathSplit_base_no_slash p2) hh2 hhl
  obtain ⟨hdir, hsp⟩ := dir_slash_split _ _ _ _ (valid_dirGood p1 hv1) (valid_dirGood p2 hv2)
    hsg1.2.1 hsg2.2.1 heq
  obtain ⟨hb, hh⟩ := splice_inj hl _ _ _ _ (pathSplit_base_no_slash p1)
    (pathSplit_base_no_slash p2) hh1 hh2 hhl hsp
  refine ⟨?_, hh⟩
  rw [← pathSplit_append p1, ← pathSplit_append p2, hdir, hb]

theorem goGet_of_goGetD_ne (m : List (GoStr × GoStr)) (k : GoStr) (h : goGetD m k ≠ []) :
    goGet m k = some (goGetD m k) := by
  cases hg : goGet m k with
  | none =>
    exfalso
    apply h
    unfold goGetD
    rw [hg]
  | some v =>
    rw [goGetD_eq_of_goGet m k v hg]

theorem FSParseName_cached (s : FS) (f : GoStr) (pr : GoStr × GoStr)
    (h : goGet s.r f = some pr) : FSParseName s f = pr := by
  unfold FSParseName
  rw [h]

theorem INV_init (fsys : GoFS) (digest : List Nat → List Nat) (hl : Nat) (hhl : hl < 3) :
    INV fsys digest (initFS hl) := by
  refine ⟨hhl, ?_, ?_⟩
  · intro p hp h
    simp [initFS, goGet] at h
  · intro hp q h hr
    simp [initFS, goGet] at hr

theorem hashName_preserves_INV (fsys : GoFS) (digest : List Nat → List Nat)
    (Hdig : ∀ b, (digest b).length = 32) (s : FS) (hinv : INV fsys digest s)
    (name : GoStr) : INV fsys digest (HashName fsys digest s name).st := by
  by_cases hc : goGetD s.m name ≠ []
  · rw [HashName_cached fsys digest s name hc]
    exact hinv
  · push_neg at hc
    cases hr : readFile fsys name with
    | none =>
      rw [HashName_failed fsys digest s name hc hr]
      exact hinv
    | some c =>
      rw [HashName_computed fsys digest s name c hc hr]
      dsimp only
      have hval : fsValidPath name = true := readFile_valid fsys name c hr
      have hnne : name ≠ [] := fsValidPath_ne_nil name hval
      have hhex : HashHex (hexEncode (digest c)) := hashHex_hexEncode _ (Hdig c)
      have hfne : FormatName name (hexEncode (digest c)) s.hl ≠ [] :=
        FormatName_ne_nil name _ s.hl hnne hinv.1
      refine ⟨hinv.1, ?_, ?_⟩
      · intro p hp hget
        by_cases hpn : p = name
        · subst hpn
          rw [goGet_goSet_self] at hget
          have hhp : hp = FormatName p (hexEncode (digest c)) s.hl := by
            exact (Option.some.inj hget).symm
          refine ⟨c, hr, hhp, ?_⟩
          rw [hhp, goGet_goSet_self]
        · rw [goGet_goSet_ne s.m name p _ hpn] at hget
          obtain ⟨c2, hr2, hfmt2, hrev2⟩ := hinv.2.1 p hp hget
          have hpval : fsValidPath p = true := readFile_valid fsys p c2 hr2
          have hhex2 : HashHex (hexEncode (digest c2)) := hashHex_hexEncode _ (Hdig c2)
          have hne : hp ≠ FormatName name (hexEncode (digest c)) s.hl := by
            intro h0
            rw [hfmt2] at h0
            have := formatName_inj p name _ _ s.hl hpval hval hhex2 hhex hinv.1 h0
            exact hpn this.1
          refine ⟨c2, hr2, hfmt2, ?_⟩
          rw [goGet_goSet_ne s.r _ hp _ hne]
          exact hrev2
      · intro hp q h hget
        by_cases hhp : hp = FormatName name (hexEncode (digest c)) s.hl
        · subst hhp
          rw [goGet_goSet_self] at hget
          have hq : q = name := congrArg Prod.fst (Option.some.inj hget).symm
          subst hq
          rw [goGet_goSet_self]
        · rw [goGet_goSet_ne s.r _ hp _ hhp] at hget
          have hfwd := hinv.2.2 hp q h hget
          by_cases hqn : q = name
          · exfalso
            subst hqn
            obtain ⟨c3, hr3, hfmt3, _⟩ := hinv.2.1 q hp hfwd
            have : hp = [] := by
              have := goGetD_eq_of_goGet s.m q hp hfwd
              rw [hc] at this
              exact this.symm
            rw [hfmt3] at this
            have hqne : q ≠ [] := fsValidPath_ne_nil q (readFile_valid fsys q c3 hr3)
            exact FormatName_ne_nil q _ s.hl hqne hinv.1 this
          · rw [goGet_goSet_ne s.m name q _ hqn]
            exact hfwd

theorem reachable_INV (fsys : GoFS) (digest : List Nat → List Nat)
    (Hdig : ∀ b, (digest b).length = 32) (s : FS)
    (h : Reachable fsys digest s) : INV fsys digest s := by
  induction h with
  | init hl hhl => exact INV_init fsys digest hl hhl
  | stepHash s name hs ih => exact hashName_preserves_INV fsys digest Hdig s ih name
  | stepOpen s name hs ih =>
    rcases openFS_st fsys digest s name with h0 | ⟨q, h0⟩
    · rw [h0]; exact ih
    · rw [h0]; exact hashName_preserves_INV fsys digest Hdig s ih q
  | stepServe s req hs ih =>
    rw [serveHTTP_st]
    rcases openFS_st fsys digest s (requestFilename req) with h0 | ⟨q, h0⟩
    · rw [h0]; exact ih
    · rw [h0]; exact hashName_preserves_INV fsys digest Hdig s ih q

theorem openFS_eval (fsys : GoFS) (digest : List Nat → List Nat)
    (s : FS) (name : GoStr) :
    (openFS fsys digest s name).file
      = fsysOpen fsys
          (if (FSParseName s name).2 ≠ [] ∧
              (HashName fsys digest s (FSParseName s name).1).out = name
           then (FSParseName s name).1 else name) ∧
    (openFS fsys digest s name).hash = (FSParseName s name).2 ∧
    (openFS fsys digest s name).st
      = (if (FSParseName s name).2 ≠ []
         then (HashName fsys digest s (FSParseName s name).1).st else s) := by
  unfold openFS
  by_cases h1 : (FSParseName s name).2 ≠ []
  · by_cases h2 : (HashName fsys digest s (FSParseName s name).1).out = name
    · simp [h1, h2]
    · simp [h1, h2]
  · simp [h1]

theorem hexEncode_ne_nil_32 (digest : List Nat → List Nat)
    (Hdig : ∀ b, (digest b).length = 32) (c : List Nat) : hexEncode (digest c) ≠ [] := by
  intro h0
  have := hexEncode_length (digest c)
  rw [h0, Hdig c] at this
  simp at this

/-- C1: round-trip.  For every reachable revision-1 state, digests of sha256
length, and path whose content reads successfully, opening the hashed path
returned by `HashName` yields exactly the backing file of the original path,
the hashed path embeds the hex digest of the content just read via
`FormatName`, and the hash returned alongside the opened file is that same
digest. -/
theorem translate_then_open_roundtrip (fsys : GoFS) (digest : List Nat → List Nat)
    (Hdig : ∀ b, (digest b).length = 32) (s : FS)
    (hreach : Reachable fsys digest s)
    (p : GoStr) (c : List Nat) (hread : readFile fsys p = some c) :
    (openFS fsys digest (HashName fsys digest s p).st (HashName fsys digest s p).out).file
      = fsysOpen fsys p ∧
    (HashName fsys digest s p).out = FormatName p (hexEncode (digest c)) s.hl ∧
    (openFS fsys digest (HashName fsys digest s p).st (HashName fsys digest s p).out).hash
      = hexEncode (digest c) := by
  have hinv := reachable_INV fsys digest Hdig s hreach
  have hhl := hinv.1
  have hval : fsValidPath p = true := readFile_valid fsys p c hread
  have hpne : p ≠ [] := fsValidPath_ne_nil p hval
  by_cases hc : goGetD s.m p ≠ []
  · rw [HashName_cached fsys digest s p hc]
    dsimp only
    have hget : goGet s.m p = some (goGetD s.m p) := goGet_of_goGetD_ne s.m p hc
    obtain ⟨c2, hr2, hfmt2, hrev2⟩ := hinv.2.1 p (goGetD s.m p) hget
    have hhex2 : HashHex (hexEncode (digest c2)) := hashHex_hexEncode _ (Hdig c2)
    obtain ⟨hfile, hhash, hst⟩ := openFS_eval fsys digest s (goGetD s.m p)
    have hpn : FSParseName s (goGetD s.m p) = (p, hexEncode (digest c2)) :=
      FSParseName_cached s _ _ hrev2
    rw [hpn] at hfile hhash
    dsimp only at hfile hhash
    have hcond : hexEncode (digest c2) ≠ [] ∧
        (HashName fsys digest s p).out = goGetD s.m p := by
      constructor
      · exact hexEncode_ne_nil_32 digest Hdig c2
      · rw [HashName_cached fsys digest s p hc]
    rw [if_pos hcond] at hfile
    have hc2 : c = c2 := by
      rw [hread] at hr2
      exact Option.some.inj hr2
    subst hc2
    exact ⟨hfile, hfmt2, hhash⟩
  · push_neg at hc
    rw [HashName_computed fsys digest s p c hc hread]
    dsimp only
    have hhex : HashHex (hexEncode (digest c)) := hashHex_hexEncode _ (Hdig c)
    have hfne : FormatName p (hexEncode (digest c)) s.hl ≠ [] :=
      FormatName_ne_nil p _ s.hl hpne hhl
    obtain ⟨hfile, hhash, hst⟩ := openFS_eval fsys digest
      { s with
          m := goSet s.m p (FormatName p (hexEncode (digest c)) s.hl),
          r := goSet s.r (FormatName p (hexEncode (digest c)) s.hl)
                (p, hexEncode (digest c)) }
      (FormatName p (hexEncode (digest c)) s.hl)
    have hpn : FSParseName
        { s with
            m := goSet s.m p (FormatName p (hexEncode (digest c)) s.hl),
            r := goSet s.r (FormatName p (hexEncode (digest c)) s.hl)
                  (p, hexEncode (digest c)) }
        (FormatName p (hexEncode (digest c)) s.hl)
        = (p, hexEncode (digest c)) := by
      apply FSParseName_cached
      dsimp only
      exact goGet_goSet_self s.r _ _
    rw [hpn] at hfile hhash
    dsimp only at hfile hhash
    have hout : (HashName fsys digest
        { s with
            m := goSet s.m p (FormatName p (hexEncode (digest c)) s.hl),
            r := goSet s.r (FormatName p (hexEncode (digest c)) s.hl)
                  (p, hexEncode (digest c)) } p).out
        = FormatName p (hexEncode (digest c)) s.hl := by
      have hcget : goGetD (goSet s.m p (FormatName p (hexEncode (digest c)) s.hl)) p
          = FormatName p (hexEncode (digest c)) s.hl :=
        goGetD_eq_of_goGet _ _ _ (goGet_goSet_self _ _ _)
      rw [HashName_cached fsys digest _ p (by dsimp only; rw [hcget]; exact hfne)]
      dsimp only
      exact hcget
    have hcond : hexEncode (digest c) ≠ [] ∧
        (HashName fsys digest
          { s with
              m := goSet s.m p (FormatName p (hexEncode (digest c)) s.hl),
              r := goSet s.r (FormatName p (hexEncode (digest c)) s.hl)
                    (p, hexEncode (digest c)) } p).out
          = FormatName p (hexEncode (digest c)) s.hl := by
      exact ⟨hexEncode_ne_nil_32 digest Hdig c, hout⟩
    rw [if_pos hcond] at hfile
    exact ⟨hfile, rfl, hhash⟩

theorem translate_then_open_roundtrip_witness :
    (∀ b, (digest0 b).length = 32) ∧
    Reachable fsysScript digest0 (initFS 1) ∧
    readFile fsysScript (gs "script.js") = some [] ∧
    ((openFS fsysScript digest0
        (HashName fsysScript digest0 (initFS 1) (gs "script.js")).st
        (HashName fsysScript digest0 (initFS 1) (gs "script.js")).out).file
      = fsysOpen fsysScript (gs "script.js") ∧
     (HashName fsysScript digest0 (initFS 1) (gs "script.js")).out
       = FormatName (gs "script.js") (hexEncode (digest0 [])) (initFS 1).hl ∧
     (openFS fsysScript digest0
        (HashName fsysScript digest0 (initFS 1) (gs "script.js")).st
        (HashName fsysScript digest0 (initFS 1) (gs "script.js")).out).hash
       = hexEncode (digest0 [])) :=
  ⟨fun _ => rfl, Reachable.init 1 (by decide), by decide,
   translate_then_open_roundtrip fsysScript digest0 (fun _ => rfl) (initFS 1)
     (Reachable.init 1 (by decide)) (gs "script.js") [] (by decide)⟩

theorem translate_read_failure_witness :
    Reachable fsysEmpty digest0 (initFS 1) ∧
    Reachable2 fsysEmpty digest0 (initFS 1) ∧
    readFile fsysEmpty (gs "a.js") = none ∧
    (HashName fsysEmpty digest0 (initFS 1) (gs "a.js") = ⟨gs "a.js", initFS 1, HNSrc.readFailed⟩ ∧
     createHashedPath fsysEmpty digest0 (initFS 1) (gs "a.js") = (Except.error (), initFS 1) ∧
     GetHashPath fsysEmpty digest0 (initFS 1) (gs "a.js") = (gs "a.js", initFS 1)) :=
  ⟨Reachable.init 1 (by decide), Reachable2.init 1 (by decide), by decide,
   translate_read_failure fsysEmpty digest0 (initFS 1) (initFS 1) (gs "a.js")
     (Reachable.init 1 (by decide)) (Reachable2.init 1 (by decide)) (by decide)⟩

theorem serve_headers_witness :
    (openFS fsysLookalike digest0 (initFS 1) (requestFilename lookalikeReq)).file
      = some (GoEntry.file [7]) ∧
    ((ServeHTTP fsysLookalike digest0 (initFS 1) lookalikeReq).1.status = 200 ∧
     ((openFS fsysLookalike digest0 (initFS 1) (requestFilename lookalikeReq)).hash ≠ [] →
       (ServeHTTP fsysLookalike digest0 (initFS 1) lookalikeReq).1.cacheControl
         = some cacheControlValue ∧
       (ServeHTTP fsysLookalike digest0 (initFS 1) lookalikeReq).1.etag
         = some ('"' :: (openFS fsysLookalike digest0 (initFS 1)
             (requestFilename lookalikeReq)).hash ++ ['"'])) ∧
     ((openFS fsysLookalike digest0 (initFS 1) (requestFilename lookalikeReq)).hash = [] →
       (ServeHTTP fsysLookalike digest0 (initFS 1) lookalikeReq).1.cacheControl = none ∧
       (ServeHTTP fsysLookalike digest0 (initFS 1) lookalikeReq).1.etag = none)) :=
  ⟨by decide,
   serve_headers fsysLookalike digest0 (initFS 1) lookalikeReq [7] (by decide)⟩

theorem parse_name_characterization_witness :
    (ParseName (gs "script-" ++ hexA64 ++ gs ".js")).2 ≠ [] :=
  (parse_name_characterization (gs "script-" ++ hexA64 ++ gs ".js")).1.mpr (by decide)

theorem hashName_idempotent_witness :
    (initFS 1).hl < 3 ∧
    ((HashName fsysScript digest0
        (HashName fsysScript digest0 (initFS 1) (gs "script.js")).st (gs "script.js")).out
      = (HashName fsysScript digest0 (initFS 1) (gs "script.js")).out ∧
     (HashName fsysScript digest0
        (HashName fsysScript digest0 (initFS 1) (gs "script.js")).st (gs "script.js")).st
      = (HashName fsysScript digest0 (initFS 1) (gs "script.js")).st ∧
     (HashName fsysScript digest0
        (HashName fsysScript digest0 (initFS 1) (gs "script.js")).st (gs "script.js")).st.m.length
      = (HashName fsysScript digest0 (initFS 1) (gs "script.js")).st.m.length ∧
     (HashName fsysScript digest0
        (HashName fsysScript digest0 (initFS 1) (gs "script.js")).st (gs "script.js")).src
      ≠ HNSrc.computed ∧
     (readFile fsysScript (gs "script.js") ≠ none →
       (HashName fsysScript digest0
          (HashName fsysScript digest0 (initFS 1) (gs "script.js")).st (gs "script.js")).src
        = HNSrc.cache)) :=
  ⟨by decide,
   hashName_idempotent fsysScript digest0 (initFS 1) (gs "script.js") (by decide)⟩

/-- C9: verified substitution on open.  Revision 1's `open` substitutes the
parsed base path for the requested name exactly when the parsed hash is
nonempty and re-deriving the hashed name of that base reproduces the requested
name; in every other case the requested name itself is opened literally, the
returned hash is always the parsed hash, and the caches mutate only through
the `HashName` call that runs when the parsed hash is nonempty. -/
theorem openFS_characterization (fsys : GoFS) (digest : List Nat → List Nat)
    (s : FS) (name : GoStr) :
    (openFS fsys digest s name).file
      = fsysOpen fsys
          (if (FSParseName s name).2 ≠ [] ∧
              (HashName fsys digest s (FSParseName s name).1).out = name
           then (FSParseName s name).1 else name) ∧
    (openFS fsys digest s name).hash = (FSParseName s name).2 ∧
    (openFS fsys digest s name).st
      = (if (FSParseName s name).2 ≠ []
         then (HashName fsys digest s (FSParseName s name).1).st else s) :=
  openFS_eval fsys digest s name
